import Mathlib

/-!
Verification of the PageRank estimation engine (`pagerank.py`).

Shallow embedding of the core functions of `pagerank.py` — `transition_model`,
`sample_pagerank` and `iterate_pagerank` — together with proofs and refutations
of the specification's claims about them.

Modelling conventions:
* A Python `dict` is an insertion-ordered association list; a corpus
  (`dict` from page name to set of links) is `List (Page × List Page)`.
* Python `float` arithmetic is modelled exactly over `ℚ` ("under exact
  arithmetic", as the claims put it).
* A call that raises (`KeyError`, `IndexError`, `ZeroDivisionError`) is
  modelled as returning `none` (for `iterate_pagerank`, `IterOutcome.invalid`).
* The process-wide random source (`random.choice` / `random.choices`) is
  modelled as an explicit stream `randomSource : ℕ → ℕ` of draws; a draw over
  a non-empty population `l` yields `l[draw % l.length]`, which captures
  exactly the guarantee Python provides (the drawn element is a member of the
  population, and any member can be drawn).  `iterate_pagerank` receives the
  same ambient stream and never consults it.
* The `while` loop of `iterate_pagerank` has no iteration cap in the source;
  it is embedded with an explicit fuel parameter, `IterOutcome.running`
  standing for "the loop has not returned yet after `fuel` sweeps".
-/

namespace PageRank

abbrev Page := String

/-- A corpus: the Python `dict` mapping each page name to the set of pages it
links to, kept in insertion order.  (`crawl` produces such a dict.) -/
abbrev Corpus := List (Page × List Page)

/-- A rank table / probability distribution: `dict` from page name to `ℚ`. -/
abbrev RankTable := List (Page × ℚ)

/-- `list(corpus.keys())`. -/
def corpusKeys (corpus : Corpus) : List Page := corpus.map Prod.fst

/-- `corpus[page]`: `none` models the `KeyError` raised when `page` is not a
key of the dict. -/
def corpusLinks (corpus : Corpus) (page : Page) : Option (List Page) :=
  (corpus.find? (fun ql => ql.1 = page)).map Prod.snd

/-- `ranks[p]` on a rank-table dict.  Every reachable lookup in the source is
on a present key; the default `0` is never exercised there. -/
def rankOf (ranks : RankTable) (p : Page) : ℚ :=
  ((ranks.find? (fun qw => qw.1 = p)).map Prod.snd).getD 0

/-- Well-formed link graph, as built by `crawl` and assumed by the spec's
data model: page names are distinct, each outbound set has no duplicates, and
every link target is itself a key of the corpus. -/
def WFCorpus (corpus : Corpus) : Prop :=
  (corpus.map Prod.fst).Nodup ∧
    ∀ ql ∈ corpus, ql.2.Nodup ∧ ∀ l ∈ ql.2, l ∈ corpus.map Prod.fst

instance : DecidablePred WFCorpus := fun corpus => by
  unfold WFCorpus; infer_instance

/-- `transition_model(corpus, page, damping_factor)` from `pagerank.py`
(lines 50–86).  `corpus[page]` raises `KeyError` (here: `none`) when `page` is
not a key; otherwise the returned dict assigns, in key order, `1/len(corpus)`
to every page when `page` has no links, and otherwise `damping_factor /
len(pageLinks)` to linked pages and `(1 - damping_factor) / len(corpus)` to
the rest. -/
def transition_model (corpus : Corpus) (page : Page) (damping_factor : ℚ) :
    Option RankTable :=
  match corpusLinks corpus page with
  | none => none
  | some pageLinks =>
    let pageNames := corpusKeys corpus
    if pageLinks.length < 1 then
      some (pageNames.map (fun pageName => (pageName, 1 / (corpus.length : ℚ))))
    else
      some (pageNames.map (fun pageName =>
        if pageName ∈ pageLinks then
          (pageName, damping_factor / (pageLinks.length : ℚ))
        else
          (pageName, (1 - damping_factor) / (corpus.length : ℚ))))

/-- Sum of the values of a rank table (`sum(dist.values())`). -/
def valuesSum (ranks : RankTable) : ℚ := (ranks.map Prod.snd).sum

/-- Total of the visit counters of `sample_pagerank`. -/
def sumCounts (counts : List (Page × ℕ)) : ℕ := (counts.map Prod.snd).sum

/-- The visit-count update of `sample_pagerank` (lines 119–124): a page not
yet in the dict is appended with count `1`, an existing page's count is
incremented in place. -/
def bumpCount (counts : List (Page × ℕ)) (p : Page) : List (Page × ℕ) :=
  if p ∈ counts.map Prod.fst then
    counts.map (fun qc => if qc.1 = p then (qc.1, qc.2 + 1) else qc)
  else
    counts ++ [(p, 1)]

/-- The sampling loop of `sample_pagerank` (lines 111–124): `i` remaining
iterations of `for i in range(n - 1)`.  Each iteration computes the
transition model of the current page (`KeyError` propagates as `none`),
draws the next page from the distribution's keys (`random.choices` over an
empty population raises, hence the guard), records the visit and moves on. -/
def sampleLoop (corpus : Corpus) (d : ℚ) :
    ℕ → (ℕ → ℕ) → Page → List (Page × ℕ) → Option (Page × List (Page × ℕ))
  | 0, _, pageChosen, counts => some (pageChosen, counts)
  | Nat.succ i, randomSource, pageChosen, counts =>
    match transition_model corpus pageChosen d with
    | none => none
    | some pageChances =>
      let population := (pageChances.map Prod.fst : List Page)
      if population.length = 0 then none
      else
        let next := population.getD (randomSource 0 % population.length) ""
        sampleLoop corpus d i (fun j => randomSource (j + 1)) next (bumpCount counts next)

/-- The pages chosen by the successive draws of `sampleLoop`, in order (the
walk's trace after the starting page). -/
def sampleTrace (corpus : Corpus) (d : ℚ) :
    ℕ → (ℕ → ℕ) → Page → List Page
  | 0, _, _ => []
  | Nat.succ i, randomSource, pageChosen =>
    match transition_model corpus pageChosen d with
    | none => []
    | some pageChances =>
      let population := (pageChances.map Prod.fst : List Page)
      if population.length = 0 then []
      else
        let next := population.getD (randomSource 0 % population.length) ""
        next :: sampleTrace corpus d i (fun j => randomSource (j + 1)) next

/-- `sample_pagerank(corpus, damping_factor, n)` from `pagerank.py`
(lines 88–131).  `random.choice` over the empty key list raises `IndexError`
(→ `none`); the loop then performs `range(n - 1)` draws, and the final
`pageCount / n` raises `ZeroDivisionError` when `n = 0` (→ `none`).  For
negative `n` the loop body never runs and the division quietly produces
negative "ranks" — the source has no guard on `n`. -/
def sample_pagerank (corpus : Corpus) (damping_factor : ℚ) (n : ℤ)
    (randomSource : ℕ → ℕ) : Option RankTable :=
  let pageNames := corpusKeys corpus
  if pageNames.length = 0 then none
  else
    let pageChosen := pageNames.getD (randomSource 0 % pageNames.length) ""
    match sampleLoop corpus damping_factor (n - 1).toNat
        (fun j => randomSource (j + 1)) pageChosen [(pageChosen, 1)] with
    | none => none
    | some (_, counts) =>
      if n = 0 then none
      else some (counts.map (fun pc => (pc.1, (pc.2 : ℚ) / (n : ℚ))))

/-- All pages visited by the walk of `sample_pagerank`: the random start
page followed by the trace of the draws. -/
def sampleVisited (corpus : Corpus) (d : ℚ) (n : ℤ) (randomSource : ℕ → ℕ) :
    List Page :=
  let pageNames := corpusKeys corpus
  if pageNames.length = 0 then []
  else
    let pageChosen := pageNames.getD (randomSource 0 % pageNames.length) ""
    pageChosen :: sampleTrace corpus d (n - 1).toNat
      (fun j => randomSource (j + 1)) pageChosen

/-- The body of the `for pageName in pageNames` loop of `iterate_pagerank`
(lines 164–190), for one page `p`: build the `linksToPage` dict (a page `q`
appears with value `len(links)` when `p ∈ links`, or with value
`len(corpus)` when `q` has no links at all), sum `ranks[q] / value` over it,
and return `half1 + damping * sum`. -/
def computeRank (corpus : Corpus) (d : ℚ) (ranks : RankTable) (p : Page) : ℚ :=
  let linksToPage : List (Page × ℕ) :=
    corpus.filterMap (fun ql =>
      if p ∈ ql.2 then some (ql.1, ql.2.length)
      else if ql.2.length < 1 then some (ql.1, corpus.length)
      else none)
  let s : ℚ := (linksToPage.map (fun qc => rankOf ranks qc.1 / (qc.2 : ℚ))).sum
  (1 - d) / (corpus.length : ℚ) + d * s

/-- `estimatedPageRanks[pageName] = computeRank ...` — the in-place dict
assignment performed for page `p` (the key is always already present). -/
def sweepStep (corpus : Corpus) (d : ℚ) (ranks : RankTable) (p : Page) :
    RankTable :=
  ranks.map (fun qw => if qw.1 = p then (qw.1, computeRank corpus d ranks p) else qw)

/-- One full pass of the `for pageName in pageNames` loop (lines 164–190):
the pages are updated one after the other, each update reading the table as
left by the previous ones. -/
def iterateSweep (corpus : Corpus) (d : ℚ) (ranks : RankTable) : RankTable :=
  (corpusKeys corpus).foldl (sweepStep corpus d) ranks

/-- Modelled from the spec: the synchronous sweep the specification
describes for the Iterative Estimator — every page's new rank is computed
by the update rule from the *previous* iteration's full rank table, never
from values already updated within the same sweep. -/
def syncSweep (corpus : Corpus) (d : ℚ) (ranks : RankTable) : RankTable :=
  (corpusKeys corpus).map (fun p => (p, computeRank corpus d ranks p))

/-- The convergence test of `iterate_pagerank` (lines 192–195): total
absolute variation between the pre-sweep copy `initialValues` and the
updated table, summed over the updated table's items. -/
def totalVariation (initialValues ranks : RankTable) : ℚ :=
  (ranks.map (fun qw => |rankOf initialValues qw.1 - qw.2|)).sum

/-- Outcome of `iterate_pagerank`: `invalid` models the `ZeroDivisionError`
on an empty corpus, `running` means the unbounded `while` loop has not yet
returned within the allotted fuel, `done` carries the returned dict. -/
inductive IterOutcome where
  | invalid
  | running
  | done (ranks : RankTable)
deriving DecidableEq

/-- The `while endFlag == False` loop of `iterate_pagerank` (lines 157–199),
with explicit fuel: copy the current table, sweep every page in place, and
stop once the total variation of the sweep falls below `0.001`. -/
def iterateLoop (corpus : Corpus) (d : ℚ) :
    ℕ → RankTable → IterOutcome
  | 0, _ => .running
  | Nat.succ fuel, ranks =>
    let newRanks := iterateSweep corpus d ranks
    if totalVariation ranks newRanks < 1 / 1000 then .done newRanks
    else iterateLoop corpus d fuel newRanks

/-- `iterate_pagerank(corpus, damping_factor)` from `pagerank.py`
(lines 133–202).  `(1 - damping_factor) / len(corpus)` raises
`ZeroDivisionError` on an empty corpus; otherwise every page starts at
`1 / len(corpus)` and the loop runs until convergence.  The ambient random
source of the process is passed in explicitly; the function performs no
`random.*` call and never consults it. -/
def iterate_pagerank (corpus : Corpus) (damping_factor : ℚ)
    (randomSource : ℕ → ℕ) (fuel : ℕ) : IterOutcome :=
  if corpus.length = 0 then .invalid
  else
    iterateLoop corpus damping_factor fuel
      (corpus.map (fun ql => (ql.1, 1 / (corpus.length : ℚ))))

/-! Verification-side quantities used to analyse the convergence of the
sweep of `iterate_pagerank` (they appear in no claim statement about the
source directly, only in the termination analysis). -/

/-- The coefficient with which corpus entry `ql` contributes to the update
of page `p` in one sweep: `1/outdeg(ql)` when `ql` links to `p`, `1/N` when
`ql` is dangling, `0` otherwise. -/
def Acoef (N : ℕ) (p : Page) (ql : Page × List Page) : ℚ :=
  if p ∈ ql.2 then 1 / (ql.2.length : ℚ)
  else if ql.2.length < 1 then 1 / (N : ℚ) else 0

/-- The same coefficient, indexed by positions in the corpus: how much the
page at position `j` contributes to the update of the page at position
`i`. -/
def Acf (corpus : Corpus) (i j : Fin corpus.length) : ℚ :=
  Acoef corpus.length (corpus.get i).1 (corpus.get j)

/-- The part of column `j`'s unit mass consumed by the updates of positions
`≤ j` during a sweep (positions `> j` read `j`'s already-updated value). -/
def betaW (corpus : Corpus) (j : Fin corpus.length) : ℚ :=
  ∑ i : Fin corpus.length, if (i : ℕ) ≤ (j : ℕ) then Acf corpus i j else 0

/-- L1 distance of two rank tables over the corpus's pages (equals the
code's `totalVariation` of a sweep). -/
def sDist (corpus : Corpus) (x y : RankTable) : ℚ :=
  ∑ j : Fin corpus.length, |rankOf x (corpus.get j).1 - rankOf y (corpus.get j).1|

/-- Position-weighted seminorm driving the geometric decay of the total
variation of successive Gauss–Seidel sweeps. -/
def vDist (corpus : Corpus) (x y : RankTable) : ℚ :=
  ∑ j : Fin corpus.length,
    betaW corpus j * |rankOf x (corpus.get j).1 - rankOf y (corpus.get j).1|

/-! ## Lemmas and claim theorems -/

lemma corpusLinks_mem {corpus : Corpus} {page : Page} {links : List Page}
    (h : corpusLinks corpus page = some links) : (page, links) ∈ corpus := by
  unfold corpusLinks at h
  obtain ⟨ql, hfind, hsnd⟩ := Option.map_eq_some'.mp h
  have hmem := List.mem_of_find?_eq_some hfind
  have hfst := List.find?_some hfind
  simp only [decide_eq_true_eq] at hfst
  obtain ⟨q, l⟩ := ql
  simp only at hfst hsnd
  subst hfst; subst hsnd; exact hmem

lemma corpusLinks_ne_nil {corpus : Corpus} {page : Page} {links : List Page}
    (h : corpusLinks corpus page = some links) : corpus ≠ [] := by
  intro hnil; subst hnil
  simp [corpusLinks] at h

/-- Summing a constant-by-cases map: the sum splits by how many elements
satisfy the membership test. -/
lemma sum_map_ite (l : List Page) (links : List Page) (a b : ℚ) :
    (l.map (fun p => if p ∈ links then a else b)).sum
      = (l.countP (fun p => p ∈ links) : ℚ) * a
        + (l.countP (fun p => ¬ (p ∈ links)) : ℚ) * b := by
  induction l with
  | nil => simp
  | cons x xs ih =>
    by_cases hx : x ∈ links <;>
      simp [List.countP_cons, hx, ih] <;> ring

/-- In a duplicate-free key list, the number of keys belonging to a
duplicate-free sublist of keys is that sublist's length. -/
lemma countP_mem_eq_length {keys links : List Page}
    (hkeys : keys.Nodup) (hl : links.Nodup) (hsub : ∀ x ∈ links, x ∈ keys) :
    keys.countP (fun p => p ∈ links) = links.length := by
  rw [List.countP_eq_length_filter]
  have hperm : List.Perm (keys.filter (fun p => p ∈ links)) links := by
    rw [List.perm_ext_iff_of_nodup (hkeys.filter _) hl]
    intro a
    simp only [List.mem_filter, decide_eq_true_eq]
    exact ⟨fun h => h.2, fun h => ⟨hsub a h, h⟩⟩
  exact hperm.length_eq

/-- Counting the complement of a membership test. -/
lemma countP_not_eq (l : List Page) (links : List Page) :
    l.countP (fun p => ¬ (p ∈ links))
      = l.length - l.countP (fun p => p ∈ links) := by
  induction l with
  | nil => simp
  | cons x xs ih =>
    have hle := List.countP_le_length (fun p => decide (p ∈ links)) (l := xs)
    simp only [List.countP_cons, List.length_cons, decide_not] at ih ⊢
    by_cases hx : x ∈ links <;> simp [hx] <;> omega

/-- C10: For every well-formed graph, page with `k ≥ 1` outbound links and
damping factor `d`, the weights returned by `transition_model` sum exactly to
`d + (N - k) * (1 - d) / N`, which is strictly below `1` when `0 ≤ d < 1`:
the non-dangling branch hands the linked pages `d / k` and the others
`(1 - d) / N`, so the `(1 - d)` mass of the linked pages is dropped. -/
theorem transition_model_sum_linked (corpus : Corpus) (page : Page)
    (links : List Page) (d : ℚ) (hWF : WFCorpus corpus)
    (hlinks : corpusLinks corpus page = some links) (hk : 1 ≤ links.length) :
    ∃ t, transition_model corpus page d = some t ∧
      valuesSum t
        = d + ((corpus.length : ℚ) - (links.length : ℚ)) * (1 - d) / (corpus.length : ℚ) ∧
      (0 ≤ d → d < 1 → valuesSum t < 1) := by
  have hmem := corpusLinks_mem hlinks
  obtain ⟨hndlinks, hsub⟩ := hWF.2 _ hmem
  have hN : 0 < corpus.length :=
    List.length_pos.mpr (corpusLinks_ne_nil hlinks)
  have hcount : (corpusKeys corpus).countP (fun p => p ∈ links) = links.length :=
    countP_mem_eq_length hWF.1 hndlinks hsub
  have hkeyslen : (corpusKeys corpus).length = corpus.length := by
    simp [corpusKeys]
  have hkN : links.length ≤ corpus.length := by
    rw [← hcount, ← hkeyslen]; exact List.countP_le_length _
  have hcountNot :
      (corpusKeys corpus).countP (fun p => ¬ (p ∈ links))
        = corpus.length - links.length := by
    rw [countP_not_eq, hcount, hkeyslen]
  have hk0 : (0 : ℚ) < (links.length : ℚ) := by
    exact_mod_cast Nat.lt_of_lt_of_le Nat.zero_lt_one hk
  have hN0 : (0 : ℚ) < (corpus.length : ℚ) := by exact_mod_cast hN
  have heq : transition_model corpus page d
      = some ((corpusKeys corpus).map (fun pageName =>
          if pageName ∈ links then (pageName, d / (links.length : ℚ))
          else (pageName, (1 - d) / (corpus.length : ℚ)))) := by
    unfold transition_model
    rw [hlinks]
    simp only [if_neg (by omega : ¬ links.length < 1)]
  have hval : valuesSum ((corpusKeys corpus).map (fun pageName =>
        if pageName ∈ links then (pageName, d / (links.length : ℚ))
        else (pageName, (1 - d) / (corpus.length : ℚ))))
      = d + ((corpus.length : ℚ) - (links.length : ℚ)) * (1 - d) / (corpus.length : ℚ) := by
    unfold valuesSum
    rw [List.map_map]
    have hcomp :
        (Prod.snd ∘ fun pageName =>
            if pageName ∈ links then (pageName, d / (links.length : ℚ))
            else (pageName, (1 - d) / (corpus.length : ℚ)))
          = fun pageName =>
            (if pageName ∈ links then d / (links.length : ℚ)
             else (1 - d) / (corpus.length : ℚ)) := by
      funext pageName
      by_cases hp : pageName ∈ links <;> simp [hp]
    rw [hcomp, sum_map_ite, hcount, hcountNot]
    rw [Nat.cast_sub hkN]
    field_simp
  refine ⟨_, heq, hval, fun hd0 hd1 => ?_⟩
  rw [hval, ← sub_pos]
  have hexp :
      1 - (d + ((corpus.length : ℚ) - (links.length : ℚ)) * (1 - d) / (corpus.length : ℚ))
        = (links.length : ℚ) * (1 - d) / (corpus.length : ℚ) := by
    field_simp
    ring
  rw [hexp]
  exact div_pos (mul_pos hk0 (by linarith)) hN0

/-- Witness for C10 on the two-page graph `{1.html: {2.html}, 2.html: {}}`
at damping `0.85`: the weights sum to `37/40 < 1`. -/
theorem transition_model_sum_linked_witness :
    WFCorpus [("1.html", ["2.html"]), ("2.html", [])] ∧
    corpusLinks [("1.html", ["2.html"]), ("2.html", [])] "1.html" = some ["2.html"] ∧
    1 ≤ (["2.html"] : List Page).length ∧
    ∃ t, transition_model [("1.html", ["2.html"]), ("2.html", [])] "1.html" (17/20)
          = some t ∧
        valuesSum t = 37/40 ∧ valuesSum t < 1 := by
  refine ⟨by decide, by decide, by decide, ?_⟩
  obtain ⟨t, h1, h2, h3⟩ :=
    transition_model_sum_linked [("1.html", ["2.html"]), ("2.html", [])] "1.html"
      ["2.html"] (17/20) (by decide) (by decide) (by decide)
  refine ⟨t, h1, ?_, h3 (by norm_num) (by norm_num)⟩
  rw [h2]
  norm_num

/-- C5: for every graph and every page recorded with zero outbound links,
`transition_model` returns, whatever the damping factor, the uniform
distribution over the full key set: every page gets exactly `1 / N`. -/
theorem transition_model_dangling (corpus : Corpus) (page : Page) (d : ℚ)
    (hlinks : corpusLinks corpus page = some []) :
    ∃ t, transition_model corpus page d = some t ∧
      t.map Prod.fst = corpusKeys corpus ∧
      ∀ pw ∈ t, pw.2 = 1 / (corpus.length : ℚ) := by
  refine ⟨(corpusKeys corpus).map (fun pageName => (pageName, 1 / (corpus.length : ℚ))),
    ?_, ?_, ?_⟩
  · unfold transition_model
    rw [hlinks]
    rfl
  · rw [List.map_map]
    simp [corpusKeys]
  · intro pw hpw
    obtain ⟨p, hp, hpe⟩ := List.mem_map.mp hpw
    rw [← hpe]

/-- Witness for C5 on the one-page graph `{a.html: {}}`: the dangling page
gets the uniform distribution `{a.html: 1}`. -/
theorem transition_model_dangling_witness :
    corpusLinks [("a.html", [])] "a.html" = some [] ∧
    ∃ t, transition_model [("a.html", [])] "a.html" (17/20) = some t ∧
      t.map Prod.fst = corpusKeys [("a.html", [])] ∧
      ∀ pw ∈ t, pw.2 = 1 / (([("a.html", [])] : Corpus).length : ℚ) :=
  ⟨by decide, transition_model_dangling [("a.html", [])] "a.html" (17/20) (by decide)⟩

/-- C1 is refuted by the code: on the graph `{1.html: {2.html}, 2.html: {}}`
with damping `0.85`, `transition_model` for the non-dangling page `1.html`
returns weights summing to `37/40 = 0.925 ≠ 1` — the non-dangling branch
drops the `(1 - damping)` share of the linked pages, contradicting both the
spec's guarantee and the function's own docstring (probability `damping` to
follow a link plus `1 - damping` for a uniform jump must total `1`). -/
theorem transition_model_sum_bug :
    (transition_model [("1.html", ["2.html"]), ("2.html", [])] "1.html" (17/20)).map
        valuesSum = some (37/40)
      ∧ (37/40 : ℚ) ≠ 1 := by
  constructor
  · simp [transition_model, corpusLinks, corpusKeys, valuesSum, List.find?]
    norm_num
  · norm_num

lemma corpusLinks_isSome_of_mem {corpus : Corpus} {page : Page}
    (h : page ∈ corpusKeys corpus) :
    ∃ links, corpusLinks corpus page = some links := by
  unfold corpusLinks
  obtain ⟨ql, hql, hfst⟩ := List.mem_map.mp h
  have hsome : (corpus.find? (fun ql => ql.1 = page)).isSome := by
    rw [List.find?_isSome]
    exact ⟨ql, hql, by simp [hfst]⟩
  obtain ⟨pl, hpl⟩ := Option.isSome_iff_exists.mp hsome
  exact ⟨pl.2, by rw [hpl]; rfl⟩

/-- For any page that is a key of the corpus, `transition_model` succeeds and
the returned distribution's keys are exactly the corpus's keys, in order. -/
lemma transition_model_total {corpus : Corpus} {page : Page} (d : ℚ)
    (h : page ∈ corpusKeys corpus) :
    ∃ t, transition_model corpus page d = some t ∧
      t.map Prod.fst = corpusKeys corpus := by
  obtain ⟨links, hl⟩ := corpusLinks_isSome_of_mem h
  by_cases hlen : links.length < 1
  · refine ⟨(corpusKeys corpus).map
        (fun pageName => (pageName, 1 / (corpus.length : ℚ))), ?_, ?_⟩
    · unfold transition_model
      rw [hl]
      simp only [if_pos hlen]
    · rw [List.map_map]
      simp [corpusKeys]
  · refine ⟨(corpusKeys corpus).map (fun pageName =>
        if pageName ∈ links then (pageName, d / (links.length : ℚ))
        else (pageName, (1 - d) / (corpus.length : ℚ))), ?_, ?_⟩
    · unfold transition_model
      rw [hl]
      simp only [if_neg hlen]
    · rw [List.map_map]
      have hcomp : (Prod.fst ∘ fun pageName =>
          if pageName ∈ links then (pageName, d / (links.length : ℚ))
          else (pageName, (1 - d) / (corpus.length : ℚ))) = id := by
        funext q
        by_cases hq : q ∈ links <;> simp [hq]
      rw [hcomp, List.map_id]

lemma map_upd_fst (counts : List (Page × ℕ)) (p : Page) :
    (counts.map (fun qc => if qc.1 = p then (qc.1, qc.2 + 1) else qc)).map Prod.fst
      = counts.map Prod.fst := by
  rw [List.map_map]
  have hcomp : (Prod.fst ∘ fun qc : Page × ℕ =>
      if qc.1 = p then (qc.1, qc.2 + 1) else qc) = Prod.fst := by
    funext qc
    by_cases h : qc.1 = p <;> simp [h]
  rw [hcomp]

lemma map_upd_id {counts : List (Page × ℕ)} {p : Page}
    (h : p ∉ counts.map Prod.fst) :
    counts.map (fun qc => if qc.1 = p then (qc.1, qc.2 + 1) else qc) = counts := by
  induction counts with
  | nil => rfl
  | cons qc rest ih =>
    simp only [List.map_cons, List.mem_cons, not_or] at h ⊢
    rw [if_neg (by simpa using fun he => h.1 he.symm), ih (by simpa using h.2)]

lemma bumpCount_fst (counts : List (Page × ℕ)) (p : Page) :
    (bumpCount counts p).map Prod.fst
      = if p ∈ counts.map Prod.fst then counts.map Prod.fst
        else counts.map Prod.fst ++ [p] := by
  unfold bumpCount
  by_cases h : p ∈ counts.map Prod.fst
  · rw [if_pos h, if_pos h, map_upd_fst]
  · rw [if_neg h, if_neg h]
    simp

lemma bumpCount_nodup {counts : List (Page × ℕ)} {p : Page}
    (h : (counts.map Prod.fst).Nodup) :
    ((bumpCount counts p).map Prod.fst).Nodup := by
  rw [bumpCount_fst]
  by_cases hp : p ∈ counts.map Prod.fst
  · simpa [hp]
  · simp [hp, List.nodup_append, h]

lemma bumpCount_toFinset (counts : List (Page × ℕ)) (p : Page) :
    ((bumpCount counts p).map Prod.fst).toFinset
      = insert p (counts.map Prod.fst).toFinset := by
  rw [bumpCount_fst]
  by_cases hp : p ∈ counts.map Prod.fst
  · rw [if_pos hp]
    exact (Finset.insert_eq_self.mpr (List.mem_toFinset.mpr hp)).symm
  · rw [if_neg hp]
    ext q
    simp [or_comm]

lemma sumCounts_map_upd {counts : List (Page × ℕ)} {p : Page}
    (h : p ∈ counts.map Prod.fst) (hnd : (counts.map Prod.fst).Nodup) :
    sumCounts (counts.map (fun qc => if qc.1 = p then (qc.1, qc.2 + 1) else qc))
      = sumCounts counts + 1 := by
  induction counts with
  | nil => cases h
  | cons qc rest ih =>
    simp only [List.map_cons, List.nodup_cons] at hnd
    by_cases hq : qc.1 = p
    · have hrest : p ∉ rest.map Prod.fst := hq ▸ hnd.1
      simp only [List.map_cons, if_pos hq, sumCounts, List.map_cons, List.sum_cons,
        map_upd_id hrest]
      omega
    · have hp : p ∈ rest.map Prod.fst := by
        rcases List.mem_cons.mp h with he | hm
        · exact absurd he.symm hq
        · exact hm
      have := ih hp hnd.2
      simp only [List.map_cons, if_neg hq, sumCounts, List.sum_cons] at this ⊢
      omega

lemma sumCounts_bumpCount {counts : List (Page × ℕ)} {p : Page}
    (hnd : (counts.map Prod.fst).Nodup) :
    sumCounts (bumpCount counts p) = sumCounts counts + 1 := by
  unfold bumpCount
  by_cases hp : p ∈ counts.map Prod.fst
  · rw [if_pos hp]
    exact sumCounts_map_upd hp hnd
  · rw [if_neg hp]
    simp [sumCounts]

lemma bumpCount_pos {counts : List (Page × ℕ)} {p : Page}
    (h : ∀ pc ∈ counts, 1 ≤ pc.2) :
    ∀ pc ∈ bumpCount counts p, 1 ≤ pc.2 := by
  unfold bumpCount
  intro pc hpc
  by_cases hp : p ∈ counts.map Prod.fst
  · rw [if_pos hp] at hpc
    obtain ⟨qc, hqc, hqe⟩ := List.mem_map.mp hpc
    by_cases hq : qc.1 = p
    · rw [if_pos hq] at hqe
      rw [← hqe]
      exact Nat.le_succ_of_le (h qc hqc)
    · rw [if_neg hq] at hqe
      rw [← hqe]
      exact h qc hqc
  · rw [if_neg hp] at hpc
    rcases List.mem_append.mp hpc with hm | hm
    · exact h pc hm
    · simp only [List.mem_singleton] at hm
      rw [hm]

/-- A modular draw over a non-empty list lands in the list. -/
lemma getD_mod_mem {l : List Page} (h : l.length ≠ 0) (n : ℕ) :
    l.getD (n % l.length) "" ∈ l := by
  have hlt : n % l.length < l.length := Nat.mod_lt _ (Nat.pos_of_ne_zero h)
  rw [List.getD_eq_getElem _ _ hlt]
  exact List.getElem_mem hlt

/-- Invariant of the sampling loop: starting from a current page that is a
corpus key and a duplicate-free, everywhere-positive count table, the loop
always succeeds, adds exactly one visit per iteration, and ends with count
keys covering exactly the starting keys plus the pages of the walk's trace. -/
lemma sampleLoop_spec (corpus : Corpus) (d : ℚ) (hc : corpus ≠ []) :
    ∀ (i : ℕ) (randomSource : ℕ → ℕ) (cur : Page) (counts : List (Page × ℕ)),
      cur ∈ corpusKeys corpus →
      (counts.map Prod.fst).Nodup →
      (∀ pc ∈ counts, 1 ≤ pc.2) →
      ∃ cur' counts',
        sampleLoop corpus d i randomSource cur counts = some (cur', counts') ∧
        (counts'.map Prod.fst).Nodup ∧
        (∀ pc ∈ counts', 1 ≤ pc.2) ∧
        sumCounts counts' = sumCounts counts + i ∧
        (counts'.map Prod.fst).toFinset
          = (counts.map Prod.fst).toFinset
            ∪ (sampleTrace corpus d i randomSource cur).toFinset := by
  intro i
  induction i with
  | zero =>
    intro randomSource cur counts hcur hnd hpos
    exact ⟨cur, counts, rfl, hnd, hpos, by simp [sumCounts],
      by simp [sampleTrace]⟩
  | succ i ih =>
    intro randomSource cur counts hcur hnd hpos
    obtain ⟨t, htm, htk⟩ := transition_model_total d hcur
    have hklen : (corpusKeys corpus).length ≠ 0 := by
      simp only [ne_eq, List.length_eq_zero, corpusKeys, List.map_eq_nil_iff]
      exact hc
    have hplen : (t.map Prod.fst).length ≠ 0 := by rw [htk]; exact hklen
    have hnext : (t.map Prod.fst).getD (randomSource 0 % (t.map Prod.fst).length) ""
        ∈ corpusKeys corpus := by
      rw [← htk]
      exact getD_mod_mem hplen _
    have hstep : sampleLoop corpus d (i + 1) randomSource cur counts
        = sampleLoop corpus d i (fun j => randomSource (j + 1))
            ((t.map Prod.fst).getD (randomSource 0 % (t.map Prod.fst).length) "")
            (bumpCount counts
              ((t.map Prod.fst).getD (randomSource 0 % (t.map Prod.fst).length) "")) := by
      rw [sampleLoop, htm]
      simp only [if_neg hplen]
    have htr : sampleTrace corpus d (i + 1) randomSource cur
        = ((t.map Prod.fst).getD (randomSource 0 % (t.map Prod.fst).length) "")
          :: sampleTrace corpus d i (fun j => randomSource (j + 1))
              ((t.map Prod.fst).getD (randomSource 0 % (t.map Prod.fst).length) "") := by
      rw [sampleTrace, htm]
      simp only [if_neg hplen]
    obtain ⟨cur', counts', hloop, hnd', hpos', hsum', hfin'⟩ :=
      ih (fun j => randomSource (j + 1))
        ((t.map Prod.fst).getD (randomSource 0 % (t.map Prod.fst).length) "")
        (bumpCount counts
          ((t.map Prod.fst).getD (randomSource 0 % (t.map Prod.fst).length) ""))
        hnext (bumpCount_nodup hnd) (bumpCount_pos hpos)
    refine ⟨cur', counts', by rw [hstep]; exact hloop, hnd', hpos', ?_, ?_⟩
    · rw [hsum', sumCounts_bumpCount hnd]
      omega
    · rw [hfin', htr, bumpCount_toFinset, List.toFinset_cons]
      ext q
      simp only [Finset.mem_union, Finset.mem_insert]
      tauto

/-- Dividing every count by `n` sums to the total count divided by `n`. -/
lemma valuesSum_div (counts : List (Page × ℕ)) (n : ℚ) :
    valuesSum (counts.map (fun pc => (pc.1, (pc.2 : ℚ) / n)))
      = ((sumCounts counts : ℕ) : ℚ) / n := by
  induction counts with
  | nil => simp [valuesSum, sumCounts]
  | cons pc rest ih =>
    simp only [valuesSum, sumCounts, List.map_cons, List.sum_cons] at ih ⊢
    rw [ih]
    push_cast
    rw [add_div]

/-- C7: for every non-empty graph, damping factor, `n ≥ 1` and behaviour of
the random source, `sample_pagerank` returns a table whose values sum to
exactly `1`: the visit counts are positive integers summing to `n` and every
value is a count divided by `n`. -/
theorem sample_pagerank_sum (corpus : Corpus) (d : ℚ) (n : ℤ)
    (randomSource : ℕ → ℕ) (hc : corpus ≠ []) (hn : 1 ≤ n) :
    ∃ t, sample_pagerank corpus d n randomSource = some t ∧ valuesSum t = 1 := by
  have hklen : (corpusKeys corpus).length ≠ 0 := by
    simp only [ne_eq, List.length_eq_zero, corpusKeys, List.map_eq_nil_iff]
    exact hc
  have hstart : (corpusKeys corpus).getD
      (randomSource 0 % (corpusKeys corpus).length) "" ∈ corpusKeys corpus :=
    getD_mod_mem hklen _
  obtain ⟨cur', counts', hloop, hnd', hpos', hsum', hfin'⟩ :=
    sampleLoop_spec corpus d hc (n - 1).toNat (fun j => randomSource (j + 1))
      ((corpusKeys corpus).getD (randomSource 0 % (corpusKeys corpus).length) "")
      [((corpusKeys corpus).getD (randomSource 0 % (corpusKeys corpus).length) "", 1)]
      hstart (by simp) (by simp)
  have hn0 : n ≠ 0 := by omega
  refine ⟨counts'.map (fun pc => (pc.1, (pc.2 : ℚ) / (n : ℚ))), ?_, ?_⟩
  · simp only [sample_pagerank, if_neg hklen, hloop, if_neg hn0]
  · rw [valuesSum_div, hsum']
    have hone : sumCounts [((corpusKeys corpus).getD
        (randomSource 0 % (corpusKeys corpus).length) "", 1)] = 1 := by
      simp [sumCounts]
    rw [hone]
    have hnat : (1 + (n - 1).toNat : ℕ) = n.toNat := by omega
    have hcast : ((n.toNat : ℕ) : ℚ) = (n : ℚ) := by
      have h0 : ((n.toNat : ℤ) : ℚ) = ((n : ℤ) : ℚ) :=
        congrArg _ (Int.toNat_of_nonneg (by omega))
      exact_mod_cast h0
    rw [hnat, hcast]
    exact div_self (by exact_mod_cast hn0)

/-- Witness for C7: a three-step walk on the two-page cycle, with every draw
taking index 0, returns a table summing to `1`. -/
theorem sample_pagerank_sum_witness :
    ([("1.html", ["2.html"]), ("2.html", ["1.html"])] : Corpus) ≠ [] ∧ (1 : ℤ) ≤ 3 ∧
    ∃ t, sample_pagerank [("1.html", ["2.html"]), ("2.html", ["1.html"])] (17/20) 3
          (fun _ => 0) = some t ∧ valuesSum t = 1 :=
  ⟨by decide, by decide,
    sample_pagerank_sum [("1.html", ["2.html"]), ("2.html", ["1.html"])] (17/20) 3
      (fun _ => 0) (by decide) (by decide)⟩

/-- C8: for every non-empty graph, damping factor, `n ≥ 1` and behaviour of
the random source, the returned table's key set is exactly the set of pages
visited by the walk (a page with zero visits is absent rather than present
with value `0`), and every present value is strictly positive. -/
theorem sample_pagerank_keys_visited (corpus : Corpus) (d : ℚ) (n : ℤ)
    (randomSource : ℕ → ℕ) (hc : corpus ≠ []) (hn : 1 ≤ n) :
    ∃ t, sample_pagerank corpus d n randomSource = some t ∧
      (t.map Prod.fst).toFinset
        = (sampleVisited corpus d n randomSource).toFinset ∧
      ∀ pv ∈ t, 0 < pv.2 := by
  have hklen : (corpusKeys corpus).length ≠ 0 := by
    simp only [ne_eq, List.length_eq_zero, corpusKeys, List.map_eq_nil_iff]
    exact hc
  have hstart : (corpusKeys corpus).getD
      (randomSource 0 % (corpusKeys corpus).length) "" ∈ corpusKeys corpus :=
    getD_mod_mem hklen _
  obtain ⟨cur', counts', hloop, hnd', hpos', hsum', hfin'⟩ :=
    sampleLoop_spec corpus d hc (n - 1).toNat (fun j => randomSource (j + 1))
      ((corpusKeys corpus).getD (randomSource 0 % (corpusKeys corpus).length) "")
      [((corpusKeys corpus).getD (randomSource 0 % (corpusKeys corpus).length) "", 1)]
      hstart (by simp) (by simp)
  have hn0 : n ≠ 0 := by omega
  have hnQ : (0 : ℚ) < (n : ℚ) := by exact_mod_cast (by omega : (0 : ℤ) < n)
  refine ⟨counts'.map (fun pc => (pc.1, (pc.2 : ℚ) / (n : ℚ))), ?_, ?_, ?_⟩
  · simp only [sample_pagerank, if_neg hklen, hloop, if_neg hn0]
  · have hmm : (counts'.map (fun pc => (pc.1, (pc.2 : ℚ) / (n : ℚ)))).map Prod.fst
        = counts'.map Prod.fst := by
      rw [List.map_map]
      rfl
    rw [hmm, hfin']
    simp only [sampleVisited, if_neg hklen, List.toFinset_cons]
    rw [Finset.insert_eq]
    simp
  · intro pv hpv
    obtain ⟨pc, hpc, hpe⟩ := List.mem_map.mp hpv
    rw [← hpe]
    exact div_pos (by exact_mod_cast Nat.lt_of_lt_of_le Nat.zero_lt_one (hpos' pc hpc)) hnQ

/-- Witness for C8: the same three-step walk as for C7; the table's keys are
the visited pages and all values are positive. -/
theorem sample_pagerank_keys_visited_witness :
    ([("1.html", ["2.html"]), ("2.html", ["1.html"])] : Corpus) ≠ [] ∧ (1 : ℤ) ≤ 3 ∧
    ∃ t, sample_pagerank [("1.html", ["2.html"]), ("2.html", ["1.html"])] (17/20) 3
          (fun _ => 0) = some t ∧
        (t.map Prod.fst).toFinset
          = (sampleVisited [("1.html", ["2.html"]), ("2.html", ["1.html"])] (17/20) 3
              (fun _ => 0)).toFinset ∧
        ∀ pv ∈ t, 0 < pv.2 :=
  ⟨by decide, by decide,
    sample_pagerank_keys_visited [("1.html", ["2.html"]), ("2.html", ["1.html"])]
      (17/20) 3 (fun _ => 0) (by decide) (by decide)⟩

/-- C3, amended: the failure conditions the code actually implements.
`transition_model` fails on any page that is not a corpus key (hence on any
page when the corpus is empty); `sample_pagerank` fails on an empty corpus
(`random.choice([])` raises `IndexError`) and on `n = 0` (`pageCount / n`
raises `ZeroDivisionError`) — but not on negative `n`, see the
counterexample; `iterate_pagerank` fails on an empty corpus
(`ZeroDivisionError` computing `(1 - damping) / len(corpus)`).  All failures
are raised synchronously by the call that detects them. -/
theorem error_conditions :
    (∀ (corpus : Corpus) (page : Page) (d : ℚ), page ∉ corpusKeys corpus →
        transition_model corpus page d = none) ∧
    (∀ (d : ℚ) (n : ℤ) (randomSource : ℕ → ℕ),
        sample_pagerank [] d n randomSource = none) ∧
    (∀ (corpus : Corpus) (d : ℚ) (randomSource : ℕ → ℕ),
        sample_pagerank corpus d 0 randomSource = none) ∧
    (∀ (d : ℚ) (randomSource : ℕ → ℕ) (fuel : ℕ),
        iterate_pagerank [] d randomSource fuel = IterOutcome.invalid) := by
  refine ⟨?_, ?_, ?_, ?_⟩
  · intro corpus page d hp
    have hfind : corpus.find? (fun ql => ql.1 = page) = none := by
      rw [List.find?_eq_none]
      intro ql hql
      simp only [decide_eq_true_eq]
      intro he
      exact hp (List.mem_map.mpr ⟨ql, hql, he⟩)
    unfold transition_model corpusLinks
    rw [hfind]
    rfl
  · intro d n randomSource
    rfl
  · intro corpus d randomSource
    simp only [sample_pagerank]
    split
    · rfl
    · split
      · rfl
      · simp
  · intro d randomSource fuel
    rfl

/-- Counterexample to C3 as stated: with `n = -1 < 1`, `sample_pagerank`
does not fail.  `range(n - 1)` is empty, the start page keeps its single
recorded visit, and `1 / -1` divides fine, so the call returns the rank
table `{a.html: -1.0}` instead of raising. -/
theorem sample_pagerank_negative_n :
    sample_pagerank [("a.html", [])] (17/20) (-1) (fun _ => 0)
      = some [("a.html", -1)] := by
  norm_num [sample_pagerank, corpusKeys, sampleLoop]

/-- C9: `iterate_pagerank` is deterministic — it never consults the ambient
random source, so two runs on the same graph, damping factor and fuel return
the same outcome whatever each run's random source does. -/
theorem iterate_pagerank_deterministic (corpus : Corpus) (d : ℚ)
    (randomSource₁ randomSource₂ : ℕ → ℕ) (fuel : ℕ) :
    iterate_pagerank corpus d randomSource₁ fuel
      = iterate_pagerank corpus d randomSource₂ fuel := rfl

/-- Witness for the amended C3: concrete instances of each failure, plus the
discharged key-absence hypothesis. -/
theorem error_conditions_witness :
    ("b.html" ∉ corpusKeys [("a.html", [])]) ∧
    transition_model [("a.html", [])] "b.html" 1 = none ∧
    sample_pagerank [] 1 5 (fun _ => 0) = none ∧
    sample_pagerank [("a.html", [])] 1 0 (fun _ => 0) = none ∧
    iterate_pagerank [] 1 (fun _ => 0) 7 = IterOutcome.invalid :=
  ⟨by decide, error_conditions.1 [("a.html", [])] "b.html" 1 (by decide),
    error_conditions.2.1 1 5 (fun _ => 0),
    error_conditions.2.2.1 [("a.html", [])] 1 (fun _ => 0),
    error_conditions.2.2.2 1 (fun _ => 0) 7⟩

lemma rankOf_cons (qw : Page × ℚ) (rest : RankTable) (q : Page) :
    rankOf (qw :: rest) q = if qw.1 = q then qw.2 else rankOf rest q := by
  unfold rankOf
  by_cases h : qw.1 = q <;> simp [List.find?_cons, h]

/-- Updating the value at key `p` leaves every other key's value alone. -/
lemma rankOf_upd_ne {ranks : RankTable} {p q : Page} (v : ℚ) (h : q ≠ p) :
    rankOf (ranks.map (fun qw => if qw.1 = p then (qw.1, v) else qw)) q
      = rankOf ranks q := by
  induction ranks with
  | nil => rfl
  | cons qw rest ih =>
    simp only [List.map_cons]
    by_cases hq : qw.1 = p
    · rw [if_pos hq, rankOf_cons, rankOf_cons]
      simp only [hq, if_neg (fun he : p = q => h he.symm), ih]
    · rw [if_neg hq, rankOf_cons, rankOf_cons, ih]

/-- Updating the value at a present key `p` makes `ranks[p]` the new value. -/
lemma rankOf_upd_self {ranks : RankTable} {p : Page} (v : ℚ)
    (h : p ∈ ranks.map Prod.fst) :
    rankOf (ranks.map (fun qw => if qw.1 = p then (qw.1, v) else qw)) p = v := by
  induction ranks with
  | nil => cases h
  | cons qw rest ih =>
    simp only [List.map_cons]
    by_cases hq : qw.1 = p
    · rw [if_pos hq, rankOf_cons]
      simp [hq]
    · rw [if_neg hq, rankOf_cons, if_neg hq]
      rcases List.mem_cons.mp h with he | hm
      · exact absurd he.symm hq
      · exact ih hm

lemma rankOf_sweepStep_ne {corpus : Corpus} {d : ℚ} {ranks : RankTable}
    {p q : Page} (h : q ≠ p) :
    rankOf (sweepStep corpus d ranks p) q = rankOf ranks q :=
  rankOf_upd_ne _ h

lemma rankOf_sweepStep_self {corpus : Corpus} {d : ℚ} {ranks : RankTable}
    {p : Page} (h : p ∈ ranks.map Prod.fst) :
    rankOf (sweepStep corpus d ranks p) p = computeRank corpus d ranks p :=
  rankOf_upd_self _ h

lemma sweepStep_fst (corpus : Corpus) (d : ℚ) (ranks : RankTable) (p : Page) :
    (sweepStep corpus d ranks p).map Prod.fst = ranks.map Prod.fst := by
  unfold sweepStep
  rw [List.map_map]
  have hcomp : (Prod.fst ∘ fun qw : Page × ℚ =>
      if qw.1 = p then (qw.1, computeRank corpus d ranks p) else qw) = Prod.fst := by
    funext qw
    by_cases h : qw.1 = p <;> simp [h]
  rw [hcomp]

lemma foldl_sweepStep_fst (corpus : Corpus) (d : ℚ) (l : List Page) :
    ∀ ranks : RankTable,
      ((l.foldl (sweepStep corpus d) ranks).map Prod.fst) = ranks.map Prod.fst := by
  induction l with
  | nil => intro ranks; rfl
  | cons p rest ih =>
    intro ranks
    rw [List.foldl_cons, ih, sweepStep_fst]

lemma foldl_sweepStep_rankOf_not_mem (corpus : Corpus) (d : ℚ) (l : List Page) :
    ∀ (ranks : RankTable) (q : Page), q ∉ l →
      rankOf (l.foldl (sweepStep corpus d) ranks) q = rankOf ranks q := by
  induction l with
  | nil => intro ranks q _; rfl
  | cons p rest ih =>
    intro ranks q hq
    simp only [List.mem_cons, not_or] at hq
    rw [List.foldl_cons, ih _ _ hq.2, rankOf_sweepStep_ne hq.1]

/-- C2, amended: the sweep of `iterate_pagerank` is an in-place
(Gauss–Seidel) pass, not the synchronous one the spec describes.  The final
value of the `i`-th page equals the update rule evaluated on the table
*after* the earlier pages' in-place updates — the pre-sweep copy
`initialValues` is only used for the convergence test. -/
theorem iterate_sweep_gauss_seidel (corpus : Corpus) (d : ℚ) (ranks : RankTable)
    (i : ℕ) (hnd : (corpusKeys corpus).Nodup)
    (hkeys : ranks.map Prod.fst = corpusKeys corpus)
    (hi : i < (corpusKeys corpus).length) :
    rankOf (iterateSweep corpus d ranks) ((corpusKeys corpus).get ⟨i, hi⟩)
      = computeRank corpus d
          (((corpusKeys corpus).take i).foldl (sweepStep corpus d) ranks)
          ((corpusKeys corpus).get ⟨i, hi⟩) := by
  have hsplit : corpusKeys corpus
      = (corpusKeys corpus).take i
        ++ ((corpusKeys corpus).get ⟨i, hi⟩ :: (corpusKeys corpus).drop (i + 1)) := by
    rw [List.get_eq_getElem, ← List.drop_eq_getElem_cons hi, List.take_append_drop]
  have hnotmem : (corpusKeys corpus).get ⟨i, hi⟩ ∉ (corpusKeys corpus).drop (i + 1) := by
    have hdnd : ((corpusKeys corpus).drop i).Nodup :=
      (List.drop_sublist i _).nodup hnd
    rw [List.drop_eq_getElem_cons hi] at hdnd
    rw [List.get_eq_getElem]
    exact (List.nodup_cons.mp hdnd).1
  have hmem : (corpusKeys corpus).get ⟨i, hi⟩
      ∈ (((corpusKeys corpus).take i).foldl (sweepStep corpus d) ranks).map Prod.fst := by
    rw [foldl_sweepStep_fst, hkeys]
    exact List.get_mem _ _ _
  calc rankOf (iterateSweep corpus d ranks) ((corpusKeys corpus).get ⟨i, hi⟩)
      = rankOf
          (((corpusKeys corpus).get ⟨i, hi⟩ :: (corpusKeys corpus).drop (i + 1)).foldl
            (sweepStep corpus d)
            (((corpusKeys corpus).take i).foldl (sweepStep corpus d) ranks))
          ((corpusKeys corpus).get ⟨i, hi⟩) := by
        unfold iterateSweep
        rw [← List.foldl_append]
        rw [← hsplit]
    _ = rankOf
          (sweepStep corpus d (((corpusKeys corpus).take i).foldl (sweepStep corpus d) ranks)
            ((corpusKeys corpus).get ⟨i, hi⟩))
          ((corpusKeys corpus).get ⟨i, hi⟩) := by
        rw [List.foldl_cons]
        exact foldl_sweepStep_rankOf_not_mem corpus d _ _ _ hnotmem
    _ = computeRank corpus d
          (((corpusKeys corpus).take i).foldl (sweepStep corpus d) ranks)
          ((corpusKeys corpus).get ⟨i, hi⟩) :=
        rankOf_sweepStep_self hmem

/-- Witness for the amended C2 on the graph `{A.html: {B.html}, B.html: {}}`
at damping `1/2`, uniform start, second page (`i = 1`). -/
theorem iterate_sweep_gauss_seidel_witness :
    (corpusKeys [("A.html", ["B.html"]), ("B.html", [])]).Nodup ∧
    ([("A.html", (1:ℚ)/2), ("B.html", (1:ℚ)/2)] : RankTable).map Prod.fst
      = corpusKeys [("A.html", ["B.html"]), ("B.html", [])] ∧
    1 < (corpusKeys [("A.html", ["B.html"]), ("B.html", [])]).length ∧
    rankOf (iterateSweep [("A.html", ["B.html"]), ("B.html", [])] (1/2)
        [("A.html", 1/2), ("B.html", 1/2)])
        ((corpusKeys [("A.html", ["B.html"]), ("B.html", [])]).get ⟨1, by decide⟩)
      = computeRank [("A.html", ["B.html"]), ("B.html", [])] (1/2)
          (((corpusKeys [("A.html", ["B.html"]), ("B.html", [])]).take 1).foldl
            (sweepStep [("A.html", ["B.html"]), ("B.html", [])] (1/2))
            [("A.html", 1/2), ("B.html", 1/2)])
          ((corpusKeys [("A.html", ["B.html"]), ("B.html", [])]).get ⟨1, by decide⟩) :=
  ⟨by decide, by rfl, by decide,
    iterate_sweep_gauss_seidel [("A.html", ["B.html"]), ("B.html", [])] (1/2)
      [("A.html", 1/2), ("B.html", 1/2)] 1 (by decide) (by rfl) (by decide)⟩

/-- Counterexample to C2 as stated: on `{A.html: {B.html}, B.html: {}}` with
damping `1/2` and the uniform table, the code's in-place sweep gives
`B.html ↦ 9/16` — its update reads `A.html`'s value `3/8` already updated
within the same sweep — while the synchronous sweep described by the spec
(every update reading the previous iteration's full table) gives
`B.html ↦ 5/8`. -/
theorem iterate_sweep_not_synchronous :
    iterateSweep [("A.html", ["B.html"]), ("B.html", [])] (1/2)
        [("A.html", 1/2), ("B.html", 1/2)]
      = [("A.html", 3/8), ("B.html", 9/16)] ∧
    syncSweep [("A.html", ["B.html"]), ("B.html", [])] (1/2)
        [("A.html", 1/2), ("B.html", 1/2)]
      = [("A.html", 3/8), ("B.html", 5/8)] ∧
    ((9 : ℚ)/16 ≠ (5 : ℚ)/8) := by
  refine ⟨?_, ?_, by norm_num⟩ <;>
  · simp +decide [iterateSweep, syncSweep, sweepStep, computeRank, corpusKeys,
      rankOf, List.find?, List.filterMap_cons]
    norm_num

/-- Splitting the `linksToPage` sum of `computeRank` into the pages that
link to `p` and the dangling pages (the two cases are mutually exclusive:
a page whose links contain `p` is not dangling). -/
lemma filterMap_split (p : Page) (ranks : RankTable) (N : ℕ) (l : Corpus) :
    ((l.filterMap (fun ql =>
        if p ∈ ql.2 then some (ql.1, ql.2.length)
        else if ql.2.length < 1 then some (ql.1, N) else none)).map
      (fun qc => rankOf ranks qc.1 / (qc.2 : ℚ))).sum
      = ((l.filter (fun ql => p ∈ ql.2)).map
          (fun ql => rankOf ranks ql.1 / (ql.2.length : ℚ))).sum
        + ((l.filter (fun ql => ql.2.length < 1)).map
          (fun ql => rankOf ranks ql.1 / (N : ℚ))).sum := by
  induction l with
  | nil => simp
  | cons ql rest ih =>
    simp only [Nat.lt_one_iff, List.length_eq_zero] at ih ⊢
    by_cases h1 : p ∈ ql.2
    · have h2 : ¬ (ql.2 = []) := List.ne_nil_of_mem h1
      simp [List.filterMap_cons, List.filter_cons, h1, h2, ih]
      ring
    · by_cases h2 : ql.2 = []
      · simp [List.filterMap_cons, List.filter_cons, h1, h2, ih]
        ring
      · simp [List.filterMap_cons, List.filter_cons, h1, h2, ih]

/-- C6, amended: in the update of page `p`, a page `q` with zero outbound
links enters `linksToPage` with effective outdegree `N = len(corpus)` and
contributes `ranks[q] / N` to `p`'s sum, where `ranks` is the table current
at the moment of `p`'s update: the update rule decomposes as
`(1-d)/N + d * (Σ over linkers q of ranks[q]/outdeg(q) + Σ over dangling q
of ranks[q]/N)`.  Because the table is updated in place, the `N`
contributions a dangling page distributes across one sweep may read
different values of its rank and need not total its sweep-start rank — see
the counterexample. -/
theorem iterate_update_dangling (corpus : Corpus) (d : ℚ) (ranks : RankTable)
    (p : Page) :
    computeRank corpus d ranks p
      = (1 - d) / (corpus.length : ℚ)
        + d * (((corpus.filter (fun ql => p ∈ ql.2)).map
              (fun ql => rankOf ranks ql.1 / (ql.2.length : ℚ))).sum
          + ((corpus.filter (fun ql => ql.2.length < 1)).map
              (fun ql => rankOf ranks ql.1 / (corpus.length : ℚ))).sum) := by
  unfold computeRank
  simp only [filterMap_split]

/-- Counterexample to C6's conservation clause: on the graph
`{B.html: {}, A.html: {B.html}}` (the dangling page first in `dict` order)
with damping `1/2` and the uniform table, the dangling page `B.html`
contributes `ranks[B]/2` twice during the sweep — once to its own update,
reading its start value `1/2` (contribution `1/4`), and once to `A.html`'s
update, reading its own already-updated value `5/8` (contribution `5/16`).
The distributed total `9/16` differs from its full (sweep-start) rank
`1/2`. -/
theorem iterate_dangling_not_conserving :
    sweepStep [("B.html", []), ("A.html", ["B.html"])] (1/2)
        [("B.html", 1/2), ("A.html", 1/2)] "B.html"
      = [("B.html", 5/8), ("A.html", 1/2)] ∧
    iterateSweep [("B.html", []), ("A.html", ["B.html"])] (1/2)
        [("B.html", 1/2), ("A.html", 1/2)]
      = [("B.html", 5/8), ("A.html", 13/32)] ∧
    rankOf [("B.html", (1:ℚ)/2), ("A.html", (1:ℚ)/2)] "B.html" / 2
        + rankOf [("B.html", (5:ℚ)/8), ("A.html", (1:ℚ)/2)] "B.html" / 2
      ≠ rankOf [("B.html", (1:ℚ)/2), ("A.html", (1:ℚ)/2)] "B.html" := by
  refine ⟨?_, ?_, ?_⟩ <;>
  · simp +decide [iterateSweep, sweepStep, computeRank, corpusKeys, rankOf,
      List.find?, List.filterMap_cons]
    norm_num

/-! Lemmas for the termination analysis of `iterate_pagerank` (claim C4). -/

/-- In a table with duplicate-free keys, each entry's value is what `rankOf`
looks up for its key. -/
lemma rankOf_eq_of_mem {tbl : RankTable} (hnd : (tbl.map Prod.fst).Nodup) :
    ∀ qw ∈ tbl, rankOf tbl qw.1 = qw.2 := by
  induction tbl with
  | nil => intro qw h; cases h
  | cons hd rest ih =>
    simp only [List.map_cons, List.nodup_cons] at hnd
    intro qw hqw
    rcases List.mem_cons.mp hqw with he | hm
    · subst he
      rw [rankOf_cons, if_pos rfl]
    · rw [rankOf_cons, if_neg, ih hnd.2 qw hm]
      intro he
      exact hnd.1 (he ▸ List.mem_map.mpr ⟨qw, hm, rfl⟩)

/-- A list sum of mapped values as a sum over positions. -/
lemma sum_map_eq_fin_sum {α : Type} (l : List α) (f : α → ℚ) :
    (l.map f).sum = ∑ i : Fin l.length, f (l.get i) := by
  induction l with
  | nil => simp
  | cons a rest ih =>
    rw [List.map_cons, List.sum_cons, ih]
    exact (Fin.sum_univ_succ (fun i : Fin ((a :: rest).length) => f ((a :: rest).get i))).symm

lemma Acoef_nonneg (N : ℕ) (p : Page) (ql : Page × List Page) :
    0 ≤ Acoef N p ql := by
  unfold Acoef
  split
  · positivity
  · split
    · positivity
    · exact le_refl 0

lemma Acf_nonneg (corpus : Corpus) (i j : Fin corpus.length) :
    0 ≤ Acf corpus i j := Acoef_nonneg _ _ _

/-- The `linksToPage` sum of `computeRank` as a sum of coefficients over the
whole corpus. -/
lemma filterMap_eq_Acoef_sum (p : Page) (r : RankTable) (N : ℕ) (l : Corpus) :
    ((l.filterMap (fun ql =>
        if p ∈ ql.2 then some (ql.1, ql.2.length)
        else if ql.2.length < 1 then some (ql.1, N) else none)).map
      (fun qc => rankOf r qc.1 / (qc.2 : ℚ))).sum
      = (l.map (fun ql => Acoef N p ql * rankOf r ql.1)).sum := by
  induction l with
  | nil => simp
  | cons ql rest ih =>
    by_cases h1 : p ∈ ql.2
    · simp only [List.filterMap_cons, h1, if_true, List.map_cons, List.sum_cons, ih,
        Acoef, ite_true]
      ring
    · by_cases h2 : ql.2.length < 1
      · simp only [List.filterMap_cons, h1, h2, if_false, if_true, List.map_cons,
          List.sum_cons, ih, Acoef, ite_true, ite_false]
        ring
      · simp only [List.filterMap_cons, h1, h2, if_false, List.map_cons,
          List.sum_cons, ih, Acoef, ite_false]
        ring

/-- `computeRank` as an affine function of the looked-up ranks. -/
lemma computeRank_eq_sum (corpus : Corpus) (d : ℚ) (r : RankTable) (p : Page) :
    computeRank corpus d r p
      = (1 - d) / (corpus.length : ℚ)
        + d * (corpus.map (fun ql => Acoef corpus.length p ql * rankOf r ql.1)).sum := by
  unfold computeRank
  simp only [filterMap_eq_Acoef_sum]

/-- Values at positions `< i₁` are unchanged by the part of the sweep between
`i₁` and `i₂`. -/
lemma foldl_take_rankOf_stable (corpus : Corpus) (d : ℚ)
    (hnd : (corpusKeys corpus).Nodup) (x : RankTable)
    {i₁ i₂ j : ℕ} (hj : j < i₁) (h12 : i₁ ≤ i₂)
    (hjN : j < (corpusKeys corpus).length) :
    rankOf (((corpusKeys corpus).take i₂).foldl (sweepStep corpus d) x)
        ((corpusKeys corpus).get ⟨j, hjN⟩)
      = rankOf (((corpusKeys corpus).take i₁).foldl (sweepStep corpus d) x)
        ((corpusKeys corpus).get ⟨j, hjN⟩) := by
  have hi2 : i₂ = i₁ + (i₂ - i₁) := by omega
  have hmem : (corpusKeys corpus).get ⟨j, hjN⟩ ∈ (corpusKeys corpus).take i₁ := by
    rw [List.get_take (corpusKeys corpus) hjN hj]
    exact List.get_mem _ _ _
  have hnot : (corpusKeys corpus).get ⟨j, hjN⟩
      ∉ ((corpusKeys corpus).drop i₁).take (i₂ - i₁) :=
    fun hm => (List.disjoint_take_drop hnd (le_refl i₁)) hmem (List.take_subset _ _ hm)
  rw [hi2, List.take_add, List.foldl_append]
  exact foldl_sweepStep_rankOf_not_mem corpus d _ _ _ hnot

/-- The sweep's value at position `i` in terms of the final values of the
earlier positions and the pre-sweep values of the later ones. -/
lemma sweep_value_mix (corpus : Corpus) (d : ℚ) (x : RankTable)
    (hnd : (corpusKeys corpus).Nodup) (hx : x.map Prod.fst = corpusKeys corpus)
    (i : Fin corpus.length) :
    rankOf (iterateSweep corpus d x) (corpus.get i).1
      = (1 - d) / (corpus.length : ℚ)
        + d * ∑ j : Fin corpus.length, Acf corpus i j *
            (if (j : ℕ) < (i : ℕ)
             then rankOf (iterateSweep corpus d x) (corpus.get j).1
             else rankOf x (corpus.get j).1) := by
  have hlen : (corpusKeys corpus).length = corpus.length := by simp [corpusKeys]
  have hiks : (i : ℕ) < (corpusKeys corpus).length := by rw [hlen]; exact i.isLt
  have hget : ∀ (j : Fin corpus.length) (hjk : (j : ℕ) < (corpusKeys corpus).length),
      (corpusKeys corpus).get ⟨j, hjk⟩ = (corpus.get j).1 := by
    intro j hjk
    simp [corpusKeys]
  have h1 := iterate_sweep_gauss_seidel corpus d x (i : ℕ) hnd hx hiks
  rw [hget i hiks] at h1
  have hmix : ∀ j : Fin corpus.length,
      Acoef corpus.length (corpus.get i).1 (corpus.get j)
          * rankOf (((corpusKeys corpus).take (i : ℕ)).foldl (sweepStep corpus d) x)
              (corpus.get j).1
        = Acf corpus i j *
            (if (j : ℕ) < (i : ℕ)
             then rankOf (iterateSweep corpus d x) (corpus.get j).1
             else rankOf x (corpus.get j).1) := by
    intro j
    have hjks : (j : ℕ) < (corpusKeys corpus).length := by rw [hlen]; exact j.isLt
    unfold Acf
    congr 1
    by_cases hji : (j : ℕ) < (i : ℕ)
    · rw [if_pos hji]
      have hst := @foldl_take_rankOf_stable corpus d hnd x
        (i : ℕ) (corpusKeys corpus).length (j : ℕ) hji hiks.le hjks
      rw [List.take_length, hget j hjks] at hst
      exact hst.symm
    · rw [if_neg hji]
      have hdropmem : (corpus.get j).1 ∈ (corpusKeys corpus).drop (i : ℕ) := by
        have hsum : (i : ℕ) + ((j : ℕ) - (i : ℕ)) = (j : ℕ) := by omega
        have hlt : (i : ℕ) + ((j : ℕ) - (i : ℕ)) < (corpusKeys corpus).length := by
          omega
        have hd := List.get_drop (corpusKeys corpus) hlt
        have hfin : (⟨(i : ℕ) + ((j : ℕ) - (i : ℕ)), hlt⟩
            : Fin (corpusKeys corpus).length) = ⟨j, hjks⟩ := Fin.ext hsum
        rw [hfin, hget j hjks] at hd
        rw [hd]
        exact List.get_mem _ _ _
      have hnotmem : (corpus.get j).1 ∉ (corpusKeys corpus).take (i : ℕ) :=
        fun hm => (List.disjoint_take_drop hnd (le_refl (i : ℕ))) hm hdropmem
      exact foldl_sweepStep_rankOf_not_mem corpus d _ _ _ hnotmem
  rw [h1, computeRank_eq_sum, sum_map_eq_fin_sum,
    Finset.sum_congr rfl (fun j _ => hmix j)]

lemma sum_map_const {α : Type} (l : List α) (c : ℚ) :
    (l.map (fun _ => c)).sum = l.length * c := by
  induction l with
  | nil => simp
  | cons a rest ih =>
    simp [ih]
    ring

/-- Each page redistributes exactly one unit of mass per sweep: the column
sums of the sweep's coefficient matrix are `1` on a well-formed corpus. -/
lemma Acf_col_sum (corpus : Corpus) (hWF : WFCorpus corpus) (hne : corpus ≠ [])
    (j : Fin corpus.length) :
    ∑ i : Fin corpus.length, Acf corpus i j = 1 := by
  have hN0 : (corpus.length : ℚ) ≠ 0 := by
    have hpos : 0 < corpus.length := List.length_pos.mpr hne
    exact_mod_cast hpos.ne'
  have h0 : ∑ i : Fin corpus.length, Acf corpus i j
      = (corpus.map (fun ql => Acoef corpus.length ql.1 (corpus.get j))).sum := by
    unfold Acf
    exact (sum_map_eq_fin_sum corpus
      (fun ql => Acoef corpus.length ql.1 (corpus.get j))).symm
  rw [h0]
  obtain ⟨hndlinks, hsub⟩ := hWF.2 (corpus.get j) (List.get_mem _ _ _)
  by_cases hdang : (corpus.get j).2.length < 1
  · have hq2 : (corpus.get j).2 = [] := List.length_eq_zero.mp (by omega)
    have hconst : ∀ ql ∈ corpus,
        Acoef corpus.length ql.1 (corpus.get j) = 1 / (corpus.length : ℚ) := by
      intro ql _
      unfold Acoef
      rw [hq2]
      simp
    rw [List.map_congr_left hconst, sum_map_const]
    field_simp
  · have hlen1 : 1 ≤ (corpus.get j).2.length := by omega
    have hval : ∀ ql ∈ corpus,
        Acoef corpus.length ql.1 (corpus.get j)
          = if ql.1 ∈ (corpus.get j).2
            then 1 / ((corpus.get j).2.length : ℚ) else 0 := by
      intro ql _
      unfold Acoef
      by_cases hm : ql.1 ∈ (corpus.get j).2
      · rw [if_pos hm, if_pos hm]
      · rw [if_neg hm, if_neg hm, if_neg hdang]
    rw [List.map_congr_left hval]
    have hcomp : (fun ql : Page × List Page =>
        if ql.1 ∈ (corpus.get j).2 then 1 / (((corpus.get j).2.length : ℕ) : ℚ) else 0)
        = (fun p => if p ∈ (corpus.get j).2
            then 1 / (((corpus.get j).2.length : ℕ) : ℚ) else 0) ∘ Prod.fst := rfl
    rw [hcomp, ← List.map_map, sum_map_ite, countP_mem_eq_length hWF.1 hndlinks hsub]
    have hl0 : (((corpus.get j).2.length : ℕ) : ℚ) ≠ 0 := by
      have hpos : 0 < (corpus.get j).2.length := by omega
      exact_mod_cast hpos.ne'
    field_simp
    rw [div_self]
    simpa using hl0

lemma betaW_nonneg (corpus : Corpus) (j : Fin corpus.length) :
    0 ≤ betaW corpus j := by
  apply Finset.sum_nonneg
  intro i _
  split
  · exact Acf_nonneg corpus i j
  · exact le_refl 0

lemma betaW_le_one (corpus : Corpus) (hWF : WFCorpus corpus) (hne : corpus ≠ [])
    (j : Fin corpus.length) : betaW corpus j ≤ 1 := by
  rw [← Acf_col_sum corpus hWF hne j]
  apply Finset.sum_le_sum
  intro i _
  split
  · exact le_refl _
  · exact Acf_nonneg corpus i j

/-- The per-position bound on the difference of two sweeps: position `i`'s
gap is at most `d` times the coefficient-weighted mix of the gaps of the
already-updated positions and of the input gaps of the later positions. -/
lemma sweep_diff_bound (corpus : Corpus) (d : ℚ) (hd0 : 0 ≤ d)
    (x y : RankTable) (hnd : (corpusKeys corpus).Nodup)
    (hx : x.map Prod.fst = corpusKeys corpus)
    (hy : y.map Prod.fst = corpusKeys corpus) (i : Fin corpus.length) :
    |rankOf (iterateSweep corpus d x) (corpus.get i).1
        - rankOf (iterateSweep corpus d y) (corpus.get i).1|
      ≤ d * ∑ j : Fin corpus.length, Acf corpus i j *
          (if (j : ℕ) < (i : ℕ)
           then |rankOf (iterateSweep corpus d x) (corpus.get j).1
                  - rankOf (iterateSweep corpus d y) (corpus.get j).1|
           else |rankOf x (corpus.get j).1 - rankOf y (corpus.get j).1|) := by
  have e1 : rankOf (iterateSweep corpus d x) (corpus.get i).1
        - rankOf (iterateSweep corpus d y) (corpus.get i).1
      = d * ∑ j : Fin corpus.length, Acf corpus i j *
          ((if (j : ℕ) < (i : ℕ)
            then rankOf (iterateSweep corpus d x) (corpus.get j).1
            else rankOf x (corpus.get j).1)
          - (if (j : ℕ) < (i : ℕ)
            then rankOf (iterateSweep corpus d y) (corpus.get j).1
            else rankOf y (corpus.get j).1)) := by
    rw [sweep_value_mix corpus d x hnd hx i, sweep_value_mix corpus d y hnd hy i]
    rw [Finset.sum_congr rfl (fun j _ => mul_sub (Acf corpus i j) _ _),
      Finset.sum_sub_distrib]
    ring
  calc |rankOf (iterateSweep corpus d x) (corpus.get i).1
        - rankOf (iterateSweep corpus d y) (corpus.get i).1|
      = d * |∑ j : Fin corpus.length, Acf corpus i j *
          ((if (j : ℕ) < (i : ℕ)
            then rankOf (iterateSweep corpus d x) (corpus.get j).1
            else rankOf x (corpus.get j).1)
          - (if (j : ℕ) < (i : ℕ)
            then rankOf (iterateSweep corpus d y) (corpus.get j).1
            else rankOf y (corpus.get j).1))| := by
        rw [e1, abs_mul, abs_of_nonneg hd0]
    _ ≤ d * ∑ j : Fin corpus.length, |Acf corpus i j *
          ((if (j : ℕ) < (i : ℕ)
            then rankOf (iterateSweep corpus d x) (corpus.get j).1
            else rankOf x (corpus.get j).1)
          - (if (j : ℕ) < (i : ℕ)
            then rankOf (iterateSweep corpus d y) (corpus.get j).1
            else rankOf y (corpus.get j).1))| :=
        mul_le_mul_of_nonneg_left (Finset.abs_sum_le_sum_abs _ _) hd0
    _ = d * ∑ j : Fin corpus.length, Acf corpus i j *
          (if (j : ℕ) < (i : ℕ)
           then |rankOf (iterateSweep corpus d x) (corpus.get j).1
                  - rankOf (iterateSweep corpus d y) (corpus.get j).1|
           else |rankOf x (corpus.get j).1 - rankOf y (corpus.get j).1|) := by
        congr 1
        apply Finset.sum_congr rfl
        intro j _
        rw [abs_mul, abs_of_nonneg (Acf_nonneg corpus i j)]
        congr 1
        by_cases hji : (j : ℕ) < (i : ℕ) <;> simp [hji]

/-- Summed over all positions, one sweep's L1 gap is controlled by the
coefficient masses: positions read the new gap with the mass used after them
(`1 - betaW`) and the old gap with the mass used up to them (`betaW`). -/
lemma sweep_S_bound (corpus : Corpus) (d : ℚ) (hWF : WFCorpus corpus)
    (hne : corpus ≠ []) (hd0 : 0 ≤ d) (x y : RankTable)
    (hx : x.map Prod.fst = corpusKeys corpus)
    (hy : y.map Prod.fst = corpusKeys corpus) :
    sDist corpus (iterateSweep corpus d x) (iterateSweep corpus d y)
      ≤ d * ∑ j : Fin corpus.length,
          ((1 - betaW corpus j)
              * |rankOf (iterateSweep corpus d x) (corpus.get j).1
                  - rankOf (iterateSweep corpus d y) (corpus.get j).1|
            + betaW corpus j
              * |rankOf x (corpus.get j).1 - rankOf y (corpus.get j).1|) := by
  have hnd : (corpusKeys corpus).Nodup := hWF.1
  have h1 : sDist corpus (iterateSweep corpus d x) (iterateSweep corpus d y)
      ≤ ∑ i : Fin corpus.length, d * ∑ j : Fin corpus.length, Acf corpus i j *
          (if (j : ℕ) < (i : ℕ)
           then |rankOf (iterateSweep corpus d x) (corpus.get j).1
                  - rankOf (iterateSweep corpus d y) (corpus.get j).1|
           else |rankOf x (corpus.get j).1 - rankOf y (corpus.get j).1|) := by
    unfold sDist
    exact Finset.sum_le_sum fun i _ => sweep_diff_bound corpus d hd0 x y hnd hx hy i
  have h2 : ∑ i : Fin corpus.length, d * ∑ j : Fin corpus.length, Acf corpus i j *
          (if (j : ℕ) < (i : ℕ)
           then |rankOf (iterateSweep corpus d x) (corpus.get j).1
                  - rankOf (iterateSweep corpus d y) (corpus.get j).1|
           else |rankOf x (corpus.get j).1 - rankOf y (corpus.get j).1|)
      = d * ∑ j : Fin corpus.length, ∑ i : Fin corpus.length, Acf corpus i j *
          (if (j : ℕ) < (i : ℕ)
           then |rankOf (iterateSweep corpus d x) (corpus.get j).1
                  - rankOf (iterateSweep corpus d y) (corpus.get j).1|
           else |rankOf x (corpus.get j).1 - rankOf y (corpus.get j).1|) := by
    rw [← Finset.mul_sum, Finset.sum_comm]
  have h3 : ∀ j : Fin corpus.length,
      ∑ i : Fin corpus.length, Acf corpus i j *
          (if (j : ℕ) < (i : ℕ)
           then |rankOf (iterateSweep corpus d x) (corpus.get j).1
                  - rankOf (iterateSweep corpus d y) (corpus.get j).1|
           else |rankOf x (corpus.get j).1 - rankOf y (corpus.get j).1|)
      = (1 - betaW corpus j)
            * |rankOf (iterateSweep corpus d x) (corpus.get j).1
                - rankOf (iterateSweep corpus d y) (corpus.get j).1|
        + betaW corpus j
            * |rankOf x (corpus.get j).1 - rankOf y (corpus.get j).1| := by
    intro j
    have hsplit : ∀ i : Fin corpus.length, Acf corpus i j *
        (if (j : ℕ) < (i : ℕ)
         then |rankOf (iterateSweep corpus d x) (corpus.get j).1
                - rankOf (iterateSweep corpus d y) (corpus.get j).1|
         else |rankOf x (corpus.get j).1 - rankOf y (corpus.get j).1|)
        = (if ¬ ((i : ℕ) ≤ (j : ℕ)) then Acf corpus i j else 0)
            * |rankOf (iterateSweep corpus d x) (corpus.get j).1
                - rankOf (iterateSweep corpus d y) (corpus.get j).1|
          + (if (i : ℕ) ≤ (j : ℕ) then Acf corpus i j else 0)
            * |rankOf x (corpus.get j).1 - rankOf y (corpus.get j).1| := by
      intro i
      by_cases hij : (i : ℕ) ≤ (j : ℕ)
      · rw [if_pos hij, if_neg (by omega : ¬ ¬ ((i : ℕ) ≤ (j : ℕ))),
          if_neg (by omega : ¬ ((j : ℕ) < (i : ℕ)))]
        ring
      · rw [if_neg hij, if_pos hij, if_pos (by omega : (j : ℕ) < (i : ℕ))]
        ring
    rw [Finset.sum_congr rfl (fun i _ => hsplit i), Finset.sum_add_distrib,
      ← Finset.sum_mul, ← Finset.sum_mul]
    have hbeta : ∑ i : Fin corpus.length,
        (if (i : ℕ) ≤ (j : ℕ) then Acf corpus i j else 0) = betaW corpus j := rfl
    have halpha : ∑ i : Fin corpus.length,
        (if ¬ ((i : ℕ) ≤ (j : ℕ)) then Acf corpus i j else 0)
        = 1 - betaW corpus j := by
      have hadd : ∑ i : Fin corpus.length,
            (if (i : ℕ) ≤ (j : ℕ) then Acf corpus i j else 0)
          + ∑ i : Fin corpus.length,
            (if ¬ ((i : ℕ) ≤ (j : ℕ)) then Acf corpus i j else 0)
          = ∑ i : Fin corpus.length, Acf corpus i j := by
        rw [← Finset.sum_add_distrib]
        apply Finset.sum_congr rfl
        intro i _
        by_cases hij : (i : ℕ) ≤ (j : ℕ) <;> simp [hij]
      rw [Acf_col_sum corpus hWF hne j] at hadd
      linarith [hbeta ▸ hadd]
    rw [hbeta, halpha]
  calc sDist corpus (iterateSweep corpus d x) (iterateSweep corpus d y)
      ≤ _ := h1
    _ = _ := h2
    _ = d * ∑ j : Fin corpus.length,
          ((1 - betaW corpus j)
              * |rankOf (iterateSweep corpus d x) (corpus.get j).1
                  - rankOf (iterateSweep corpus d y) (corpus.get j).1|
            + betaW corpus j
              * |rankOf x (corpus.get j).1 - rankOf y (corpus.get j).1|) := by
        rw [Finset.sum_congr rfl (fun j _ => h3 j)]

/-- The decay inequality of one Gauss–Seidel sweep: for any `t` with
`1 ≤ t` and `t * d < 1`,
`t·d·V(new) + (1 − t·d)·S(new) ≤ d·V(old)`. -/
lemma sweep_decay (corpus : Corpus) (d t : ℚ) (hWF : WFCorpus corpus)
    (hne : corpus ≠ []) (hd0 : 0 ≤ d) (ht1 : 1 ≤ t)
    (x y : RankTable)
    (hx : x.map Prod.fst = corpusKeys corpus)
    (hy : y.map Prod.fst = corpusKeys corpus) :
    t * d * vDist corpus (iterateSweep corpus d x) (iterateSweep corpus d y)
        + (1 - t * d) * sDist corpus (iterateSweep corpus d x) (iterateSweep corpus d y)
      ≤ d * vDist corpus x y := by
  have hS := sweep_S_bound corpus d hWF hne hd0 x y hx hy
  have hpt : ∀ j : Fin corpus.length,
      (d * (1 - betaW corpus j) + t * d * betaW corpus j + (1 - t * d))
          * |rankOf (iterateSweep corpus d x) (corpus.get j).1
              - rankOf (iterateSweep corpus d y) (corpus.get j).1|
        ≤ |rankOf (iterateSweep corpus d x) (corpus.get j).1
              - rankOf (iterateSweep corpus d y) (corpus.get j).1| := by
    intro j
    have hb0 := betaW_nonneg corpus j
    have hb1 := betaW_le_one corpus hWF hne j
    have habs : (0 : ℚ) ≤ |rankOf (iterateSweep corpus d x) (corpus.get j).1
        - rankOf (iterateSweep corpus d y) (corpus.get j).1| := abs_nonneg _
    have hcoef : d * (1 - betaW corpus j) + t * d * betaW corpus j + (1 - t * d) ≤ 1 := by
      nlinarith [mul_nonneg (mul_nonneg hd0 (sub_nonneg.mpr ht1))
        (sub_nonneg.mpr hb1)]
    calc (d * (1 - betaW corpus j) + t * d * betaW corpus j + (1 - t * d))
          * |rankOf (iterateSweep corpus d x) (corpus.get j).1
              - rankOf (iterateSweep corpus d y) (corpus.get j).1|
        ≤ 1 * |rankOf (iterateSweep corpus d x) (corpus.get j).1
              - rankOf (iterateSweep corpus d y) (corpus.get j).1| :=
          mul_le_mul_of_nonneg_right hcoef habs
      _ = _ := one_mul _
  have hsum : ∑ j : Fin corpus.length,
        (d * (1 - betaW corpus j) + t * d * betaW corpus j + (1 - t * d))
          * |rankOf (iterateSweep corpus d x) (corpus.get j).1
              - rankOf (iterateSweep corpus d y) (corpus.get j).1|
      ≤ sDist corpus (iterateSweep corpus d x) (iterateSweep corpus d y) := by
    unfold sDist
    exact Finset.sum_le_sum fun j _ => hpt j
  have hexpand : ∑ j : Fin corpus.length,
        (d * (1 - betaW corpus j) + t * d * betaW corpus j + (1 - t * d))
          * |rankOf (iterateSweep corpus d x) (corpus.get j).1
              - rankOf (iterateSweep corpus d y) (corpus.get j).1|
      = d * ∑ j : Fin corpus.length, (1 - betaW corpus j)
              * |rankOf (iterateSweep corpus d x) (corpus.get j).1
                  - rankOf (iterateSweep corpus d y) (corpus.get j).1|
        + t * d * vDist corpus (iterateSweep corpus d x) (iterateSweep corpus d y)
        + (1 - t * d) * sDist corpus (iterateSweep corpus d x) (iterateSweep corpus d y) := by
    unfold vDist sDist
    rw [Finset.mul_sum, Finset.mul_sum, Finset.mul_sum, ← Finset.sum_add_distrib,
      ← Finset.sum_add_distrib]
    apply Finset.sum_congr rfl
    intro j _
    ring
  have hSexpand : d * ∑ j : Fin corpus.length,
        ((1 - betaW corpus j)
            * |rankOf (iterateSweep corpus d x) (corpus.get j).1
                - rankOf (iterateSweep corpus d y) (corpus.get j).1|
          + betaW corpus j
            * |rankOf x (corpus.get j).1 - rankOf y (corpus.get j).1|)
      = d * ∑ j : Fin corpus.length, (1 - betaW corpus j)
            * |rankOf (iterateSweep corpus d x) (corpus.get j).1
                - rankOf (iterateSweep corpus d y) (corpus.get j).1|
        + d * vDist corpus x y := by
    unfold vDist
    rw [Finset.sum_add_distrib, mul_add, Finset.mul_sum]
  rw [hexpand] at hsum
  rw [hSexpand] at hS
  linarith

lemma iterateSweep_fst (corpus : Corpus) (d : ℚ) (x : RankTable) :
    (iterateSweep corpus d x).map Prod.fst = x.map Prod.fst :=
  foldl_sweepStep_fst corpus d (corpusKeys corpus) x

lemma iterate_iter_fst (corpus : Corpus) (d : ℚ) (x : RankTable)
    (hx : x.map Prod.fst = corpusKeys corpus) :
    ∀ k : ℕ, ((iterateSweep corpus d)^[k] x).map Prod.fst = corpusKeys corpus := by
  intro k
  induction k with
  | zero => simpa
  | succ k ih =>
    rw [Function.iterate_succ_apply', iterateSweep_fst]
    exact ih

lemma sDist_nonneg (corpus : Corpus) (x y : RankTable) : 0 ≤ sDist corpus x y :=
  Finset.sum_nonneg fun j _ => abs_nonneg _

lemma vDist_nonneg (corpus : Corpus) (x y : RankTable) : 0 ≤ vDist corpus x y :=
  Finset.sum_nonneg fun j _ => mul_nonneg (betaW_nonneg corpus j) (abs_nonneg _)

lemma vDist_le_sDist (corpus : Corpus) (hWF : WFCorpus corpus)
    (hne : corpus ≠ []) (x y : RankTable) :
    vDist corpus x y ≤ sDist corpus x y := by
  apply Finset.sum_le_sum
  intro j _
  calc betaW corpus j * |rankOf x (corpus.get j).1 - rankOf y (corpus.get j).1|
      ≤ 1 * |rankOf x (corpus.get j).1 - rankOf y (corpus.get j).1| :=
        mul_le_mul_of_nonneg_right (betaW_le_one corpus hWF hne j) (abs_nonneg _)
    _ = _ := one_mul _

/-- The code's `totalVariation` of one sweep is the L1 distance `sDist`. -/
lemma totalVariation_eq_sDist (corpus : Corpus) (d : ℚ) (x : RankTable)
    (hnd : (corpusKeys corpus).Nodup)
    (hx : x.map Prod.fst = corpusKeys corpus) :
    totalVariation x (iterateSweep corpus d x)
      = sDist corpus x (iterateSweep corpus d x) := by
  have hknew : (iterateSweep corpus d x).map Prod.fst = corpusKeys corpus := by
    rw [iterateSweep_fst, hx]
  have hndnew : ((iterateSweep corpus d x).map Prod.fst).Nodup := by
    rw [hknew]; exact hnd
  unfold totalVariation
  have hcongr : ∀ qw ∈ iterateSweep corpus d x,
      (fun qw : Page × ℚ => |rankOf x qw.1 - qw.2|) qw
        = (fun qw : Page × ℚ =>
            |rankOf x qw.1 - rankOf (iterateSweep corpus d x) qw.1|) qw := by
    intro qw hqw
    simp only
    rw [rankOf_eq_of_mem hndnew qw hqw]
  rw [List.map_congr_left hcongr]
  have hcomp : (fun qw : Page × ℚ =>
      |rankOf x qw.1 - rankOf (iterateSweep corpus d x) qw.1|)
      = (fun p => |rankOf x p - rankOf (iterateSweep corpus d x) p|) ∘ Prod.fst := rfl
  rw [hcomp, ← List.map_map, hknew]
  have hks : corpusKeys corpus = corpus.map Prod.fst := rfl
  rw [hks, List.map_map, sum_map_eq_fin_sum]
  rfl

/-- If some iterate of the sweep has total variation below the threshold
within the allotted fuel, the loop returns. -/
lemma iterateLoop_done_of_small (corpus : Corpus) (d : ℚ) :
    ∀ (fuel : ℕ) (x : RankTable),
      (∃ k, k < fuel ∧ totalVariation ((iterateSweep corpus d)^[k] x)
          ((iterateSweep corpus d)^[k + 1] x) < 1 / 1000) →
      ∃ tbl, iterateLoop corpus d fuel x = IterOutcome.done tbl := by
  intro fuel
  induction fuel with
  | zero =>
    intro x hx
    obtain ⟨k, hk, _⟩ := hx
    omega
  | succ fuel ih =>
    intro x hx
    obtain ⟨k, hk, hsmall⟩ := hx
    by_cases h : totalVariation x (iterateSweep corpus d x) < 1 / 1000
    · refine ⟨iterateSweep corpus d x, ?_⟩
      simp only [iterateLoop, if_pos h]
    · have hstep : iterateLoop corpus d (fuel + 1) x
          = iterateLoop corpus d fuel (iterateSweep corpus d x) := by
        simp only [iterateLoop, if_neg h]
      rw [hstep]
      apply ih
      cases k with
      | zero =>
        exfalso
        apply h
        simpa using hsmall
      | succ k' =>
        refine ⟨k', by omega, ?_⟩
        rw [Function.iterate_succ_apply] at hsmall
        have h2 : (iterateSweep corpus d)^[k' + 1 + 1] x
            = (iterateSweep corpus d)^[k' + 1] (iterateSweep corpus d x) :=
          Function.iterate_succ_apply' (iterateSweep corpus d) (k' + 1) x ▸
            (by rw [Function.iterate_succ_apply])
        rw [h2] at hsmall
        exact hsmall

/-- The decay inequality transported along the iterates of the sweep. -/
lemma iterate_decay (corpus : Corpus) (d t : ℚ) (hWF : WFCorpus corpus)
    (hne : corpus ≠ []) (hd0 : 0 ≤ d) (ht1 : 1 ≤ t) (x₀ : RankTable)
    (hx₀ : x₀.map Prod.fst = corpusKeys corpus) (k : ℕ) :
    t * d * vDist corpus ((iterateSweep corpus d)^[k + 1] x₀)
          ((iterateSweep corpus d)^[k + 2] x₀)
        + (1 - t * d) * sDist corpus ((iterateSweep corpus d)^[k + 1] x₀)
          ((iterateSweep corpus d)^[k + 2] x₀)
      ≤ d * vDist corpus ((iterateSweep corpus d)^[k] x₀)
          ((iterateSweep corpus d)^[k + 1] x₀) := by
  have h := sweep_decay corpus d t hWF hne hd0 ht1
    ((iterateSweep corpus d)^[k] x₀) ((iterateSweep corpus d)^[k + 1] x₀)
    (iterate_iter_fst corpus d x₀ hx₀ k) (iterate_iter_fst corpus d x₀ hx₀ (k + 1))
  have e1 : iterateSweep corpus d ((iterateSweep corpus d)^[k] x₀)
      = (iterateSweep corpus d)^[k + 1] x₀ :=
    (Function.iterate_succ_apply' (iterateSweep corpus d) k x₀).symm
  have e2 : iterateSweep corpus d ((iterateSweep corpus d)^[k + 1] x₀)
      = (iterateSweep corpus d)^[k + 2] x₀ :=
    (Function.iterate_succ_apply' (iterateSweep corpus d) (k + 1) x₀).symm
  rw [e1, e2] at h
  exact h

/-- Geometric decay of the seminorm `vDist` along the iterates. -/
lemma vDist_iterate_pow (corpus : Corpus) (d t : ℚ) (hWF : WFCorpus corpus)
    (hne : corpus ≠ []) (hd : 0 < d) (ht1 : 1 < t) (htd1 : t * d < 1)
    (x₀ : RankTable) (hx₀ : x₀.map Prod.fst = corpusKeys corpus) (k : ℕ) :
    vDist corpus ((iterateSweep corpus d)^[k] x₀) ((iterateSweep corpus d)^[k + 1] x₀)
      ≤ (1 / t) ^ k
        * vDist corpus ((iterateSweep corpus d)^[0] x₀)
            ((iterateSweep corpus d)^[1] x₀) := by
  induction k with
  | zero => simp
  | succ k ih =>
    have hdec := iterate_decay corpus d t hWF hne hd.le ht1.le x₀ hx₀ k
    have hs := sDist_nonneg corpus ((iterateSweep corpus d)^[k + 2] x₀)
      ((iterateSweep corpus d)^[k + 1 + 2] x₀)
    have hsk := sDist_nonneg corpus ((iterateSweep corpus d)^[k + 1] x₀)
      ((iterateSweep corpus d)^[k + 2] x₀)
    have h1 : t * d * vDist corpus ((iterateSweep corpus d)^[k + 1] x₀)
          ((iterateSweep corpus d)^[k + 2] x₀)
        ≤ d * vDist corpus ((iterateSweep corpus d)^[k] x₀)
          ((iterateSweep corpus d)^[k + 1] x₀) := by
      nlinarith [mul_nonneg (by linarith : (0:ℚ) ≤ 1 - t * d) hsk]
    have htpos : (0 : ℚ) < t := by linarith
    have h2 : vDist corpus ((iterateSweep corpus d)^[k + 1] x₀)
          ((iterateSweep corpus d)^[k + 2] x₀)
        ≤ (1 / t) * vDist corpus ((iterateSweep corpus d)^[k] x₀)
          ((iterateSweep corpus d)^[k + 1] x₀) := by
      rw [div_mul_eq_mul_div, one_mul, le_div_iff htpos]
      have h1' : d * (vDist corpus ((iterateSweep corpus d)^[k + 1] x₀)
            ((iterateSweep corpus d)^[k + 2] x₀) * t)
          ≤ d * vDist corpus ((iterateSweep corpus d)^[k] x₀)
            ((iterateSweep corpus d)^[k + 1] x₀) := by
        nlinarith [h1]
      exact le_of_mul_le_mul_left h1' hd
    calc vDist corpus ((iterateSweep corpus d)^[k + 1] x₀)
          ((iterateSweep corpus d)^[k + 1 + 1] x₀)
        ≤ (1 / t) * vDist corpus ((iterateSweep corpus d)^[k] x₀)
            ((iterateSweep corpus d)^[k + 1] x₀) := h2
      _ ≤ (1 / t) * ((1 / t) ^ k
            * vDist corpus ((iterateSweep corpus d)^[0] x₀)
                ((iterateSweep corpus d)^[1] x₀)) :=
          mul_le_mul_of_nonneg_left ih (by positivity)
      _ = (1 / t) ^ (k + 1)
            * vDist corpus ((iterateSweep corpus d)^[0] x₀)
                ((iterateSweep corpus d)^[1] x₀) := by ring

/-- Some sweep's total variation eventually drops below the `0.001`
threshold. -/
lemma exists_small_sweep (corpus : Corpus) (d : ℚ) (hWF : WFCorpus corpus)
    (hne : corpus ≠ []) (hd0 : 0 ≤ d) (hd1 : d < 1) (x₀ : RankTable)
    (hx₀ : x₀.map Prod.fst = corpusKeys corpus) :
    ∃ k, sDist corpus ((iterateSweep corpus d)^[k] x₀)
        ((iterateSweep corpus d)^[k + 1] x₀) < 1 / 1000 := by
  by_cases hd : d = 0
  · subst hd
    refine ⟨1, ?_⟩
    have h := iterate_decay corpus 0 1 hWF hne (le_refl 0) (le_refl 1) x₀ hx₀ 0
    have hs := sDist_nonneg corpus ((iterateSweep corpus 0)^[1] x₀)
      ((iterateSweep corpus 0)^[2] x₀)
    have hv := vDist_nonneg corpus ((iterateSweep corpus 0)^[0] x₀)
      ((iterateSweep corpus 0)^[1] x₀)
    -- h : 0 + 1 * S(1) ≤ 0; conclude S(1) = 0 < 1/1000
    have h2 : sDist corpus ((iterateSweep corpus 0)^[1] x₀)
        ((iterateSweep corpus 0)^[2] x₀) ≤ 0 := by nlinarith [h]
    have : (0 : ℚ) < 1 / 1000 := by norm_num
    linarith
  · have hdpos : 0 < d := lt_of_le_of_ne hd0 (Ne.symm hd)
    have htd : ((1 + d) / (2 * d)) * d = (1 + d) / 2 := by
      field_simp
      ring
    have ht1 : 1 < (1 + d) / (2 * d) := by
      rw [lt_div_iff (by positivity)]
      linarith
    have htd1 : ((1 + d) / (2 * d)) * d < 1 := by rw [htd]; linarith
    have htdlow : (0 : ℚ) < 1 - ((1 + d) / (2 * d)) * d := by linarith
    have hV0 : 0 ≤ vDist corpus ((iterateSweep corpus d)^[0] x₀)
        ((iterateSweep corpus d)^[1] x₀) :=
      vDist_nonneg _ _ _
    have hC0 : 0 ≤ d / (1 - ((1 + d) / (2 * d)) * d)
        * vDist corpus ((iterateSweep corpus d)^[0] x₀)
            ((iterateSweep corpus d)^[1] x₀) :=
      mul_nonneg (div_nonneg hd0 (by linarith)) hV0
    have hy1 : (1 : ℚ) / ((1 + d) / (2 * d)) < 1 := by
      rw [div_lt_one (by linarith)]
      exact ht1
    obtain ⟨m, hm⟩ := exists_pow_lt_of_lt_one
      (show (0 : ℚ) < (1 / 1000) / (d / (1 - ((1 + d) / (2 * d)) * d)
          * vDist corpus ((iterateSweep corpus d)^[0] x₀)
              ((iterateSweep corpus d)^[1] x₀) + 1) by positivity)
      hy1
    refine ⟨m + 1, ?_⟩
    have hdecay := iterate_decay corpus d ((1 + d) / (2 * d)) hWF hne hd0 ht1.le x₀ hx₀ m
    have hV := vDist_iterate_pow corpus d ((1 + d) / (2 * d)) hWF hne hdpos ht1 htd1 x₀ hx₀ m
    have hVnn := vDist_nonneg corpus ((iterateSweep corpus d)^[m + 1] x₀)
      ((iterateSweep corpus d)^[m + 2] x₀)
    have h1 : (1 - ((1 + d) / (2 * d)) * d)
          * sDist corpus ((iterateSweep corpus d)^[m + 1] x₀)
              ((iterateSweep corpus d)^[m + 2] x₀)
        ≤ d * vDist corpus ((iterateSweep corpus d)^[m] x₀)
            ((iterateSweep corpus d)^[m + 1] x₀) := by
      nlinarith [mul_nonneg (mul_nonneg (by linarith : (0:ℚ) ≤ (1 + d) / (2 * d)) hd0) hVnn]
    have h2 : sDist corpus ((iterateSweep corpus d)^[m + 1] x₀)
          ((iterateSweep corpus d)^[m + 2] x₀)
        ≤ d / (1 - ((1 + d) / (2 * d)) * d)
            * vDist corpus ((iterateSweep corpus d)^[m] x₀)
              ((iterateSweep corpus d)^[m + 1] x₀) := by
      rw [div_mul_eq_mul_div, le_div_iff htdlow]
      linarith
    have h3 : d / (1 - ((1 + d) / (2 * d)) * d)
          * vDist corpus ((iterateSweep corpus d)^[m] x₀)
            ((iterateSweep corpus d)^[m + 1] x₀)
        ≤ d / (1 - ((1 + d) / (2 * d)) * d)
            * ((1 / ((1 + d) / (2 * d))) ^ m
              * vDist corpus ((iterateSweep corpus d)^[0] x₀)
                  ((iterateSweep corpus d)^[1] x₀)) :=
      mul_le_mul_of_nonneg_left hV (div_nonneg hd0 (by linarith))
    have h4 : d / (1 - ((1 + d) / (2 * d)) * d)
          * ((1 / ((1 + d) / (2 * d))) ^ m
            * vDist corpus ((iterateSweep corpus d)^[0] x₀)
                ((iterateSweep corpus d)^[1] x₀))
        = (1 / ((1 + d) / (2 * d))) ^ m
            * (d / (1 - ((1 + d) / (2 * d)) * d)
              * vDist corpus ((iterateSweep corpus d)^[0] x₀)
                  ((iterateSweep corpus d)^[1] x₀)) := by ring
    have h5 : (1 / ((1 + d) / (2 * d))) ^ m
          * (d / (1 - ((1 + d) / (2 * d)) * d)
            * vDist corpus ((iterateSweep corpus d)^[0] x₀)
                ((iterateSweep corpus d)^[1] x₀))
        ≤ ((1 / 1000) / (d / (1 - ((1 + d) / (2 * d)) * d)
            * vDist corpus ((iterateSweep corpus d)^[0] x₀)
                ((iterateSweep corpus d)^[1] x₀) + 1))
          * (d / (1 - ((1 + d) / (2 * d)) * d)
            * vDist corpus ((iterateSweep corpus d)^[0] x₀)
                ((iterateSweep corpus d)^[1] x₀)) :=
      mul_le_mul_of_nonneg_right hm.le hC0
    have h6 : ((1 / 1000) / (d / (1 - ((1 + d) / (2 * d)) * d)
          * vDist corpus ((iterateSweep corpus d)^[0] x₀)
              ((iterateSweep corpus d)^[1] x₀) + 1))
          * (d / (1 - ((1 + d) / (2 * d)) * d)
            * vDist corpus ((iterateSweep corpus d)^[0] x₀)
                ((iterateSweep corpus d)^[1] x₀))
        < 1 / 1000 := by
      rw [div_mul_eq_mul_div, div_lt_iff (by linarith)]
      nlinarith
    linarith [h2, h3, h4, h5, h6]

/-- Generalised form of the termination claim: from any starting table over
the corpus's keys, the loop returns within some fuel. -/
lemma iterateLoop_terminates_from (corpus : Corpus) (d : ℚ)
    (hWF : WFCorpus corpus) (hne : corpus ≠ []) (hd0 : 0 ≤ d) (hd1 : d < 1)
    (x₀ : RankTable) (hx₀ : x₀.map Prod.fst = corpusKeys corpus) :
    ∃ (fuel : ℕ) (tbl : RankTable),
      iterateLoop corpus d fuel x₀ = IterOutcome.done tbl := by
  obtain ⟨k, hk⟩ := exists_small_sweep corpus d hWF hne hd0 hd1 x₀ hx₀
  have hiter : (iterateSweep corpus d)^[k + 1] x₀
      = iterateSweep corpus d ((iterateSweep corpus d)^[k] x₀) :=
    Function.iterate_succ_apply' _ _ _
  have htv : totalVariation ((iterateSweep corpus d)^[k] x₀)
      ((iterateSweep corpus d)^[k + 1] x₀) < 1 / 1000 := by
    rw [hiter, totalVariation_eq_sDist corpus d _ hWF.1
      (iterate_iter_fst corpus d _ hx₀ k), ← hiter]
    exact hk
  obtain ⟨tbl, htbl⟩ := iterateLoop_done_of_small corpus d (k + 1) x₀
    ⟨k, Nat.lt_succ_self k, htv⟩
  exact ⟨k + 1, tbl, htbl⟩

/-- C4: on every well-formed non-empty graph, for every damping factor in
`[0, 1)`, `iterate_pagerank` terminates: although its `while` loop has no
iteration cap, some finite fuel makes it reach a sweep whose total variation
from the previous one falls below `0.001` and return the rank table.  The
proof tracks the in-place (Gauss–Seidel) sweep the code performs: each page
redistributes one unit of coefficient mass per sweep, which forces the
position-weighted seminorm `vDist` of successive sweeps to contract by
`1/t` for any `t ≥ 1` with `t·d < 1`. -/
theorem iterate_pagerank_terminates (corpus : Corpus) (d : ℚ)
    (randomSource : ℕ → ℕ) (hWF : WFCorpus corpus) (hne : corpus ≠ [])
    (hd0 : 0 ≤ d) (hd1 : d < 1) :
    ∃ (fuel : ℕ) (tbl : RankTable),
      iterate_pagerank corpus d randomSource fuel = IterOutcome.done tbl := by
  have hx₀ : (corpus.map (fun ql => (ql.1, 1 / (corpus.length : ℚ)))).map Prod.fst
      = corpusKeys corpus := by
    rw [List.map_map]
    exact List.map_congr_left (fun ql _ => rfl)
  obtain ⟨fuel, tbl, htbl⟩ := iterateLoop_terminates_from corpus d hWF hne hd0 hd1
    (corpus.map (fun ql => (ql.1, 1 / (corpus.length : ℚ)))) hx₀
  refine ⟨fuel, tbl, ?_⟩
  unfold iterate_pagerank
  rw [if_neg (by simpa [List.length_eq_zero] using hne)]
  exact htbl

/-- Witness for C4: the two-page cycle at damping `0.85` terminates. -/
theorem iterate_pagerank_terminates_witness :
    WFCorpus [("1.html", ["2.html"]), ("2.html", ["1.html"])] ∧
    ([("1.html", ["2.html"]), ("2.html", ["1.html"])] : Corpus) ≠ [] ∧
    (0 : ℚ) ≤ 17/20 ∧ (17/20 : ℚ) < 1 ∧
    ∃ (fuel : ℕ) (tbl : RankTable),
      iterate_pagerank [("1.html", ["2.html"]), ("2.html", ["1.html"])] (17/20)
        (fun _ => 0) fuel = IterOutcome.done tbl :=
  ⟨by decide, by decide, by norm_num, by norm_num,
    iterate_pagerank_terminates [("1.html", ["2.html"]), ("2.html", ["1.html"])]
      (17/20) (fun _ => 0) (by decide) (by decide) (by norm_num) (by norm_num)⟩

end PageRank
